import Mathlib

/-!
# Verification of the Puyo-Puyo board-and-chain core

Shallow embedding of the deterministic board simulation from
`src/game/board.ts`, `src/game/constants.ts`, and the AI opponent module
(`evaluateBoard`, `getPossibleMoves`, `simulateDrop`, `findBestMove`).

Conventions of the embedding:
* A grid cell is its color tag (the optional `isLocked`/`isMatched` flags of
  the TypeScript `Puyo` record are never read by any embedded function).
* Coordinates are integers `(row, col)`; piece anchors may go negative while
  probing moves, exactly as in the source.
* JavaScript `while (true)` loops are rendered as fuel-indexed recursion with
  a fuel that provably dominates the number of iterations the source
  performs; the JS `Set` objects are rendered as duplicate-free lists that
  grow by insertion exactly when the source calls `add`.
* The AI score, a JS `number`, is rendered as `JSVal`: an exact rational, the
  `-Infinity` used to seed the best-score accumulator, or `NaN` (which the
  source produces when column 0 of an evaluated board is empty).
-/

namespace Puyo

/-- Color tags of `PuyoColor` in `src/game/types.ts`. -/
inductive PuyoColor : Type
  | red | blue | green | yellow | empty | garbage
deriving DecidableEq, Repr

open PuyoColor

/-- `MIN_MATCH` from `src/game/constants.ts`. -/
def MIN_MATCH : Nat := 4

/-- `BOARD_WIDTH` from `src/game/constants.ts`. -/
def BOARD_WIDTH : Nat := 6

/-- `BOARD_HEIGHT` from `src/game/constants.ts`. -/
def BOARD_HEIGHT : Nat := 12

/-- A grid coordinate `(row, col)`, the `Position` record of the source. -/
abbrev Coord := Int × Int

/-- The `Board` record: `grid` is stored row-major, as in the source. -/
structure Board where
  grid : List (List PuyoColor)
  width : Nat
  height : Nat
deriving DecidableEq, Repr

/-- The `Piece` record: relative cell offsets, their colors, a rotation
index, and the anchor `(x, y)`. -/
structure Piece where
  positions : List Coord
  colors : List PuyoColor
  rotation : Nat
  x : Int
  y : Int
deriving DecidableEq, Repr

/-- Well-formedness of a board: the grid really is `height × width`.
JavaScript code would throw on a ragged grid; theorems that need the loops
over `height`/`width` to visit exactly the stored cells assume this. -/
def Board.WF (b : Board) : Prop :=
  b.grid.length = b.height ∧ ∀ row ∈ b.grid, row.length = b.width

instance (b : Board) : Decidable b.WF := by
  unfold Board.WF; infer_instance

/-- Read `board.grid[row][col]`; out-of-range reads return `empty` (the
source only reads after a bounds check). -/
def getCell (b : Board) (row col : Int) : PuyoColor :=
  (b.grid.getD row.toNat []).getD col.toNat PuyoColor.empty

/-- Write one grid cell (`newBoard.grid[row][col] = {color}`); out-of-range
writes are dropped. -/
def setCell (b : Board) (row col : Int) (v : PuyoColor) : Board :=
  { b with grid := b.grid.set row.toNat ((b.grid.getD row.toNat []).set col.toNat v) }

/-- `isValidPosition` from `board.ts`. -/
def isValidPosition (b : Board) (row col : Int) : Bool :=
  decide (0 ≤ row) && decide (row < (b.height : Int)) &&
    decide (0 ≤ col) && decide (col < (b.width : Int))

/-- `canPlacePiece` from `board.ts`: every cell of the piece lands in bounds
on an empty cell. -/
def canPlacePiece (b : Board) (p : Piece) : Bool :=
  p.positions.all fun pos =>
    let row := p.y + pos.1
    let col := p.x + pos.2
    isValidPosition b row col && (getCell b row col == PuyoColor.empty)

/-- The body of `placePiece`'s `forEach` over `piece.positions` with its
running index (used to select `piece.colors[index]`). -/
def placeGo (p : Piece) : Nat → List Coord → Board → Board
  | _, [], nb => nb
  | i, pos :: rest, nb =>
    let row := p.y + pos.1
    let col := p.x + pos.2
    let nb' := if isValidPosition nb row col then
        setCell nb row col (p.colors.getD i PuyoColor.empty)
      else nb
    placeGo p (i + 1) rest nb'

/-- `placePiece` from `board.ts`: writes each in-bounds piece cell, skipping
out-of-bounds ones. -/
def placePiece (b : Board) (p : Piece) : Board :=
  placeGo p 0 p.positions b

/-- `movePieceLeft` from `board.ts`. -/
def movePieceLeft (b : Board) (p : Piece) : Piece :=
  let np := { p with x := p.x - 1 }
  if canPlacePiece b np then np else p

/-- `movePieceRight` from `board.ts`. -/
def movePieceRight (b : Board) (p : Piece) : Piece :=
  let np := { p with x := p.x + 1 }
  if canPlacePiece b np then np else p

/-- `movePieceDown` from `board.ts`; note it returns `null` when blocked,
unlike the horizontal moves. -/
def movePieceDown (b : Board) (p : Piece) : Option Piece :=
  let np := { p with y := p.y + 1 }
  if canPlacePiece b np then some np else none

/-- `canMovePieceDown` from `board.ts`. -/
def canMovePieceDown (b : Board) (p : Piece) : Bool :=
  canPlacePiece b { p with y := p.y + 1 }

/-- `createBoard` from `board.ts`: an empty `BOARD_HEIGHT × BOARD_WIDTH`
grid. -/
def createBoard : Board :=
  { grid := List.replicate BOARD_HEIGHT (List.replicate BOARD_WIDTH PuyoColor.empty)
    width := BOARD_WIDTH
    height := BOARD_HEIGHT }

/-- `createRandomPiece` from `board.ts`, with the two `Math.random` color
draws made parameters; the layout, rotation and anchor are the source's
literals. -/
def createPiece (c1 c2 : PuyoColor) : Piece :=
  { positions := [(0, 2), (1, 2)]
    colors := [c1, c2]
    rotation := 0
    x := 2
    y := 0 }

/-- `rotatePiece` from `board.ts`: toggle between the vertical and
horizontal two-cell layouts, then try the anchor, then wall kicks
`+1, -1, +2, -2`. -/
def rotatePiece (p : Piece) (b : Board) : Option Piece :=
  let rotatedPositions : List Coord :=
    if p.rotation = 0 then [(0, 0), (0, 1)] else [(0, 0), (1, 0)]
  let np : Piece := { p with rotation := (p.rotation + 1) % 2, positions := rotatedPositions }
  if canPlacePiece b np then some np
  else
    let r1 := { np with x := np.x + 1 }
    if canPlacePiece b r1 then some r1
    else
      let l1 := { np with x := np.x - 1 }
      if canPlacePiece b l1 then some l1
      else
        let r2 := { np with x := np.x + 2 }
        if canPlacePiece b r2 then some r2
        else
          let l2 := { np with x := np.x - 2 }
          if canPlacePiece b l2 then some l2 else none

/-- One column of the grid, read top-to-bottom (`board.grid[row][col]` for
`row = 0 .. height-1`). -/
def getColumn (b : Board) (c : Nat) : List PuyoColor :=
  b.grid.map fun row => row.getD c PuyoColor.empty

/-- Denotation of the per-column loop of `applyGravity`: scanning from the
bottom, every non-empty cell drops past the empties below it, so the column
becomes its non-empty cells packed at the bottom, empties on top, order
preserved. -/
def compactColumn (col : List PuyoColor) : List PuyoColor :=
  List.replicate (col.countP (· == PuyoColor.empty)) PuyoColor.empty ++
    col.filter (fun v => !(v == PuyoColor.empty))

/-- `applyGravity` from `board.ts`: compact every column independently. -/
def applyGravity (b : Board) : Board :=
  { grid :=
      (List.range b.height).map fun r =>
        (List.range b.width).map fun c =>
          (compactColumn (getColumn b c)).getD r PuyoColor.empty
    width := b.width
    height := b.height }

/-- The 4-direction neighbor list probed by `getAdjacentSameColor`, in the
source's order: up, down, left, right. -/
def neighbors (p : Coord) : List Coord :=
  [(p.1 - 1, p.2), (p.1 + 1, p.2), (p.1, p.2 - 1), (p.1, p.2 + 1)]

/-- `getAdjacentSameColor` from `board.ts`: depth-first flood fill over
same-colored 4-neighbors, threading the `visited` set (rendered as a
duplicate-free list) through the neighbor calls.  The source recursion
terminates because `visited` grows; here a fuel argument bounds the depth,
and `ffFuel` below provably suffices. -/
def getAdjacentSameColor (b : Board) (color : PuyoColor) :
    Nat → Coord → List Coord → List Coord × List Coord
  | 0, _, visited => ([], visited)
  | fuel + 1, pos, visited =>
    if !(isValidPosition b pos.1 pos.2) then ([], visited)
    else if !(getCell b pos.1 pos.2 == color) then ([], visited)
    else if pos ∈ visited then ([], visited)
    else
      let v0 := pos :: visited
      let r1 := getAdjacentSameColor b color fuel (pos.1 - 1, pos.2) v0
      let r2 := getAdjacentSameColor b color fuel (pos.1 + 1, pos.2) r1.2
      let r3 := getAdjacentSameColor b color fuel (pos.1, pos.2 - 1) r2.2
      let r4 := getAdjacentSameColor b color fuel (pos.1, pos.2 + 1) r3.2
      (pos :: (r1.1 ++ r2.1 ++ r3.1 ++ r4.1), r4.2)

/-- Fuel that dominates the recursion depth of the flood fill: one more than
the number of in-bounds cells. -/
def ffFuel (b : Board) : Nat := b.width * b.height + 1

/-- The in-bounds cells of the board in the row-major order of the
`detectMatches` double loop. -/
def allCells (b : Board) : List Coord :=
  (List.range b.height).flatMap fun r : Nat =>
    (List.range b.width).map fun c : Nat => ((r : Int), (c : Int))

/-- The body of the `detectMatches` double loop for one candidate seed:
skip empty/garbage seeds and already-matched seeds, flood-fill the group
from a fresh `visited`, and record the group when it reaches `MIN_MATCH`
(the `matched` JS `Set` is rendered as a duplicate-free list that keeps
insertion order). -/
def detMatchStep (b : Board) (matched : List Coord) (pos : Coord) : List Coord :=
  let color := getCell b pos.1 pos.2
  if color == PuyoColor.empty || color == PuyoColor.garbage then matched
  else if pos ∈ matched then matched
  else
    let group := (getAdjacentSameColor b color (ffFuel b) pos []).1
    if MIN_MATCH ≤ group.length then
      group.foldl (fun m q => if q ∈ m then m else m ++ [q]) matched
    else matched

/-- `detectMatches` from `board.ts`: all coordinates belonging to some
same-colored connected group of size at least `MIN_MATCH`. -/
def detectMatches (b : Board) : List Coord :=
  (allCells b).foldl (detMatchStep b) []

/-- `clearMatches` from `board.ts`: blank out the given positions, then let
gravity settle the board. -/
def clearMatches (b : Board) (positions : List Coord) : Board :=
  applyGravity (positions.foldl (fun nb q => setCell nb q.1 q.2 PuyoColor.empty) b)

/-- Number of grid cells satisfying `p`. -/
def countCells (p : PuyoColor → Bool) (b : Board) : Nat :=
  (b.grid.map fun row => row.countP p).sum

/-- Number of non-empty grid cells. -/
def countNonEmpty (b : Board) : Nat :=
  countCells (fun v => !(v == PuyoColor.empty)) b

/-- Number of garbage grid cells. -/
def countGarbage (b : Board) : Nat :=
  countCells (fun v => v == PuyoColor.garbage) b

/-- The `while (true)` loop of `detectChains`, fuel-indexed.  Each iteration
that finds matches strictly decreases `countNonEmpty`, so the fuel chosen in
`detectChains` provably suffices. -/
def detectChainsGo : Nat → Board → Nat → Board × Nat
  | 0, board, chainCount => (board, chainCount)
  | fuel + 1, board, chainCount =>
    let ms := detectMatches board
    if ms.length = 0 then (board, chainCount)
    else detectChainsGo fuel (clearMatches board ms) (chainCount + 1)

/-- `detectChains` from `board.ts`: repeatedly clear all matches and settle
until no match remains, counting the cascade depth. -/
def detectChains (b : Board) : Board × Nat :=
  detectChainsGo (countNonEmpty b + 1) b 0

/-! ## AI opponent module -/

/-- A JavaScript `number` as it occurs in the AI evaluator: an exact
rational, the literal `-Infinity` seeding the best-score accumulator, or
`NaN` (produced by `evaluateBoard` when column 0 has no puyo, via
`b - undefined`, or when the board is entirely empty, via `0 / 0`). -/
inductive JSVal : Type
  | nan | ninf | num (q : ℚ)
deriving DecidableEq, Repr

/-- JavaScript `>` on `JSVal`: any number exceeds `-Infinity`, and every
comparison against `NaN` is false. -/
def jsGt : JSVal → JSVal → Bool
  | JSVal.num a, JSVal.num b => decide (b < a)
  | JSVal.num _, JSVal.ninf => true
  | _, _ => false

/-- The `highestPiece` accumulator of `evaluateBoard`: starts at `0` and
takes `Math.min` with the row index of every non-empty cell, scanning
row-major. -/
def highestPiece (b : Board) : Int :=
  (allCells b).foldl
    (fun acc q => if !(getCell b q.1 q.2 == PuyoColor.empty) then min acc q.1 else acc) 0

/-- `columHeights[col]` of `evaluateBoard`: scanning the column bottom-up,
the first non-empty cell at row `r` yields `height - r`; an all-empty column
leaves the slot undefined (`none`). -/
def colHeight (b : Board) (c : Nat) : Option Int :=
  ((List.range b.height).reverse.find? fun r => !(getCell b r c == PuyoColor.empty)).map
    fun r => (b.height : Int) - r

/-- The column indices where `columHeights` is defined, in order. -/
def definedCols (b : Board) : List Nat :=
  (List.range b.width).filter fun c => (colHeight b c).isSome

/-- The JS `columHeights.length`: a JS array's `length` is one past the last
defined index (0 for the empty array). -/
def colHeightsLen (b : Board) : Nat :=
  match (definedCols b).getLast? with
  | some c => c + 1
  | none => 0

/-- `evaluateBoard` from the AI module: `1000` per chain, minus `100` per
`|highestPiece|` (identically zero, since `highestPiece` starts at 0 and all
row indices are nonnegative), minus `50` times the mean absolute deviation
of the defined column heights from `columHeights[0]` — `NaN` when column 0
is undefined or no column is defined. -/
def evaluateBoard (b : Board) (chainCount : Nat) : JSVal :=
  let base : ℚ := (chainCount : ℚ) * 1000 - ((highestPiece b).natAbs : ℚ) * 100
  match definedCols b, colHeight b 0 with
  | [], _ => JSVal.nan
  | _ :: _, none => JSVal.nan
  | _ :: _, some h0 =>
    let s : ℚ := ((definedCols b).map fun c => |(((colHeight b c).getD 0 : Int) : ℚ) - (h0 : ℚ)|).sum
    JSVal.num (base - s / (colHeightsLen b : ℚ) * 50)

/-- The `// Move left` loop of `getPossibleMoves`: keep stepping left while
the step succeeds, recording each intermediate pose.  Fuel-indexed rendering
of the source's `while (true)`. -/
def slideLeft (b : Board) : Nat → Piece → List Piece
  | 0, _ => []
  | fuel + 1, cur =>
    let l := movePieceLeft b cur
    if l.x = cur.x then [] else l :: slideLeft b fuel l

/-- The `// Move right` loop of `getPossibleMoves`. -/
def slideRight (b : Board) : Nat → Piece → List Piece
  | 0, _ => []
  | fuel + 1, cur =>
    let r := movePieceRight b cur
    if r.x = cur.x then [] else r :: slideRight b fuel r

/-- Fuel dominating the number of successful horizontal steps for any piece
that has at least one cell (each successful pose keeps every cell's column
inside `[0, width)`). -/
def slideFuel (b : Board) (p : Piece) : Nat :=
  b.width + p.x.natAbs + (p.positions.map fun q => q.2.natAbs).sum + 1

/-- `getPossibleMoves` from the AI module: all poses strictly left of the
start (nearest first), then all poses strictly right of it. -/
def getPossibleMoves (b : Board) (p : Piece) : List Piece :=
  slideLeft b (slideFuel b p) p ++ slideRight b (slideFuel b p) p

/-- Fuel dominating the number of successful downward steps of
`simulateDrop`'s `while` loop for any piece with at least one cell. -/
def dropFuel (b : Board) (p : Piece) : Nat :=
  b.height + p.y.natAbs + (p.positions.map fun q => q.1.natAbs).sum + 1

/-- The hard-drop loop of `simulateDrop`. -/
def dropPiece (b : Board) : Nat → Piece → Piece
  | 0, cur => cur
  | fuel + 1, cur =>
    if canMovePieceDown b cur then
      match movePieceDown b cur with
      | some next => dropPiece b fuel next
      | none => cur
    else cur

/-- `simulateDrop` from the AI module: hard-drop the piece, lock it, and run
the chain resolver. -/
def simulateDrop (b : Board) (p : Piece) : Board × Nat :=
  detectChains (placePiece b (dropPiece b (dropFuel b p) p))

/-- The score `findBestMove` assigns to one candidate pose. -/
def scoreOf (b : Board) (m : Piece) : JSVal :=
  let r := simulateDrop b m
  evaluateBoard r.1 r.2

/-- The loop body of `findBestMove`: replace the running `(bestMove,
bestScore)` pair when the candidate's score is strictly greater. -/
def chooseStep (b : Board) (acc : Piece × JSVal) (m : Piece) : Piece × JSVal :=
  let s := scoreOf b m
  if jsGt s acc.2 then (m, s) else acc

/-- `findBestMove` from the AI module: greedy scan over the candidate
poses, keeping the first strictly-better score (`bestScore` starts at
`-Infinity`, `bestMove` at the first candidate). -/
def findBestMove (b : Board) (p : Piece) : Piece :=
  match getPossibleMoves b p with
  | [] => p
  | m0 :: rest => ((m0 :: rest).foldl (chooseStep b) (m0, JSVal.ninf)).1

/-! ## Statement-side measures and example fixtures -/

/-- The set of cells of the grid a piece would occupy, in absolute
coordinates. -/
def footprint (p : Piece) : List Coord :=
  p.positions.map fun pos => (p.y + pos.1, p.x + pos.2)

/-- The true height of column `c` (distance from the bottom edge to the
topmost non-empty cell) — the measure the spec's heuristic formula refers
to by "maxColumnHeight". -/
def trueColHeight (b : Board) (c : Nat) : Nat :=
  match (List.range b.height).find? (fun r : Nat => !(getCell b (r : Int) (c : Int) == PuyoColor.empty)) with
  | some r => b.height - r
  | none => 0

/-- The maximal true column height of the board. -/
def maxColumnHeight (b : Board) : Nat :=
  ((List.range b.width).map (trueColHeight b)).foldr max 0

/-- Adjacency-reachability through same-colored in-bounds cells: the
mathematical notion of a connected same-color group used to state the
match-threshold property. -/
def okCell (b : Board) (c : PuyoColor) (q : Coord) : Prop :=
  isValidPosition b q.1 q.2 = true ∧ getCell b q.1 q.2 = c

inductive Reach (b : Board) (c : PuyoColor) : Coord → Coord → Prop
  | refl (p : Coord) (h : okCell b c p) : Reach b c p p
  | tail {p q r : Coord} : Reach b c p q → r ∈ neighbors q → okCell b c r → Reach b c p r

instance (b : Board) (c : PuyoColor) (q : Coord) : Decidable (okCell b c q) := by
  unfold okCell
  infer_instance

/-- 1×1 empty board. -/
def exBoard1 : Board := ⟨[[PuyoColor.empty]], 1, 1⟩

/-- A one-cell piece sitting at the origin. -/
def exPieceSingle : Piece := ⟨[(0, 0)], [PuyoColor.red], 0, 0, 0⟩

/-- 5×1 board: four reds (a qualifying group) with a garbage cell adjacent
on the right. -/
def exBoardRG : Board :=
  ⟨[[PuyoColor.red, PuyoColor.red, PuyoColor.red, PuyoColor.red, PuyoColor.garbage]], 5, 1⟩

/-- 3×2 board whose bottom row is all garbage. -/
def exBoardBottomGarbage : Board :=
  ⟨[[PuyoColor.empty, PuyoColor.empty, PuyoColor.empty],
    [PuyoColor.garbage, PuyoColor.garbage, PuyoColor.garbage]], 3, 2⟩

/-- A one-cell piece in the middle column of a 3-wide board. -/
def exPieceMid : Piece := ⟨[(0, 0)], [PuyoColor.red], 0, 1, 0⟩

/-- 2×2 board with only the bottom row filled: true max column height 1. -/
def exBoardFlat : Board :=
  ⟨[[PuyoColor.empty, PuyoColor.empty], [PuyoColor.red, PuyoColor.red]], 2, 2⟩

/-- 2×2 board entirely filled: true max column height 2. -/
def exBoardFull : Board :=
  ⟨[[PuyoColor.red, PuyoColor.red], [PuyoColor.red, PuyoColor.red]], 2, 2⟩

/-- 3×1 board holding a maximal connected red group of exactly 3 cells. -/
def exBoardRow3 : Board := ⟨[[PuyoColor.red, PuyoColor.red, PuyoColor.red]], 3, 1⟩

/-- 4×1 board holding a maximal connected red group of exactly 4 cells. -/
def exBoardRow4 : Board :=
  ⟨[[PuyoColor.red, PuyoColor.red, PuyoColor.red, PuyoColor.red]], 4, 1⟩

/-- 2×3 board with floating cells, for the gravity witness. -/
def exBoardGravity : Board :=
  ⟨[[PuyoColor.red, PuyoColor.empty], [PuyoColor.empty, PuyoColor.blue],
    [PuyoColor.empty, PuyoColor.garbage]], 2, 3⟩

/-- 2×2 empty board. -/
def exBoard2x2 : Board :=
  ⟨[[PuyoColor.empty, PuyoColor.empty], [PuyoColor.empty, PuyoColor.empty]], 2, 2⟩

/-- A vertical two-cell piece in the canonical `[(0,0),(1,0)]` layout. -/
def exPieceVert : Piece :=
  ⟨[(0, 0), (1, 0)], [PuyoColor.red, PuyoColor.blue], 0, 0, 0⟩

/-! ## Basic grid lemmas -/

lemma getD_set {α : Type _} (l : List α) (i j : Nat) (a d : α) :
    (l.set i a).getD j d = if i = j ∧ i < l.length then a else l.getD j d := by
  simp only [List.getD_eq_getElem?_getD, List.getElem?_set]
  by_cases hij : i = j
  · subst hij
    by_cases hi : i < l.length
    · simp [hi]
    · simp [hi, List.getElem?_eq_none (le_of_not_lt hi)]
  · simp [hij]

lemma setCell_width (b : Board) (r c : Int) (v : PuyoColor) :
    (setCell b r c v).width = b.width := rfl

lemma setCell_height (b : Board) (r c : Int) (v : PuyoColor) :
    (setCell b r c v).height = b.height := rfl

lemma setCell_grid_length (b : Board) (r c : Int) (v : PuyoColor) :
    (setCell b r c v).grid.length = b.grid.length := by
  simp [setCell]

lemma setCell_row_length (b : Board) (r c : Int) (v : PuyoColor) (j : Nat) :
    ((setCell b r c v).grid.getD j []).length = (b.grid.getD j []).length := by
  simp only [setCell, getD_set]
  by_cases h : r.toNat = j ∧ r.toNat < b.grid.length
  · obtain ⟨h1, h2⟩ := h
    subst h1
    simp [h2]
  · simp [h]

lemma isValidPosition_congr {b b' : Board} (hw : b.width = b'.width)
    (hh : b.height = b'.height) (r c : Int) :
    isValidPosition b r c = isValidPosition b' r c := by
  simp [isValidPosition, hw, hh]

lemma getCell_setCell (b : Board) (r c : Int) (v : PuyoColor) (r' c' : Int) :
    getCell (setCell b r c v) r' c' =
      if r.toNat = r'.toNat ∧ r.toNat < b.grid.length ∧
          c.toNat = c'.toNat ∧ c.toNat < (b.grid.getD r.toNat []).length then v
      else getCell b r' c' := by
  unfold getCell setCell
  simp only
  rw [getD_set]
  by_cases h1 : r.toNat = r'.toNat ∧ r.toNat < b.grid.length
  · rw [if_pos h1, getD_set]
    obtain ⟨e1, l1⟩ := h1
    by_cases h2 : c.toNat = c'.toNat ∧ c.toNat < (b.grid.getD r.toNat []).length
    · rw [if_pos h2, if_pos ⟨e1, l1, h2.1, h2.2⟩]
    · rw [if_neg h2, if_neg (by tauto), ← e1]
  · rw [if_neg h1, if_neg (by tauto)]

lemma getCell_setCell_ne (b : Board) (r c : Int) (v : PuyoColor) (r' c' : Int)
    (hr : 0 ≤ r) (hc : 0 ≤ c) (hr' : 0 ≤ r') (hc' : 0 ≤ c')
    (hne : (r, c) ≠ (r', c')) :
    getCell (setCell b r c v) r' c' = getCell b r' c' := by
  rw [getCell_setCell]
  by_cases e1 : r.toNat = r'.toNat
  · by_cases e2 : c.toNat = c'.toNat
    · exfalso
      apply hne
      have : r = r' := by omega
      have : c = c' := by omega
      simp_all
    · rw [if_neg (by tauto)]
  · rw [if_neg (by tauto)]

lemma mem_allCells (b : Board) (q : Coord) :
    q ∈ allCells b ↔ isValidPosition b q.1 q.2 = true := by
  constructor
  · intro h
    simp only [allCells] at h
    obtain ⟨r, hr, hq⟩ := List.mem_flatMap.mp h
    obtain ⟨c, hc, rfl⟩ := List.mem_map.mp hq
    rw [List.mem_range] at hr hc
    simp only [isValidPosition, Bool.and_eq_true, decide_eq_true_eq]
    exact ⟨⟨⟨Int.natCast_nonneg r, by exact_mod_cast hr⟩, Int.natCast_nonneg c⟩,
      by exact_mod_cast hc⟩
  · intro h
    simp only [isValidPosition, Bool.and_eq_true, decide_eq_true_eq] at h
    obtain ⟨⟨⟨h1, h2⟩, h3⟩, h4⟩ := h
    simp only [allCells]
    apply List.mem_flatMap.mpr
    refine ⟨q.1.toNat, List.mem_range.mpr ((Int.toNat_lt h1).mpr h2), ?_⟩
    apply List.mem_map.mpr
    refine ⟨q.2.toNat, List.mem_range.mpr ((Int.toNat_lt h3).mpr h4), ?_⟩
    show ((q.1.toNat : Int), (q.2.toNat : Int)) = q
    rw [Int.toNat_of_nonneg h1, Int.toNat_of_nonneg h3]

lemma allCells_nonneg (b : Board) (q : Coord) (h : q ∈ allCells b) :
    0 ≤ q.1 ∧ 0 ≤ q.2 := by
  rw [mem_allCells] at h
  simp only [isValidPosition, Bool.and_eq_true, decide_eq_true_eq] at h
  tauto

/-! ## C3: movement is a no-op when blocked, except `moveDown` returns null -/

/-- C3 (amended): the horizontal movement operations are total pure
functions that return the piece unchanged when the shifted pose violates
`canPlace`; `movePieceDown`, however, signals a blocked move with `none`
(JS `null`) rather than returning the unchanged piece. -/
theorem moveBlocked_behavior (b : Board) (p : Piece) :
    (canPlacePiece b { p with x := p.x - 1 } = false → movePieceLeft b p = p) ∧
    (canPlacePiece b { p with x := p.x + 1 } = false → movePieceRight b p = p) ∧
    (canPlacePiece b { p with y := p.y + 1 } = false → movePieceDown b p = none) := by
  refine ⟨?_, ?_, ?_⟩ <;> intro h <;>
    simp [movePieceLeft, movePieceRight, movePieceDown, h]

/-- C3 counterexample: on a 1×1 board a blocked downward move returns
`none`, not the unchanged piece — refuting "never an error or null" for
`moveDown`. -/
theorem moveDown_blocked_returns_none :
    canPlacePiece exBoard1 { exPieceSingle with y := exPieceSingle.y + 1 } = false ∧
    movePieceDown exBoard1 exPieceSingle = none ∧
    ∀ q : Piece, movePieceDown exBoard1 exPieceSingle ≠ some q := by
  refine ⟨by decide, by decide, ?_⟩
  intro q
  simp [show movePieceDown exBoard1 exPieceSingle = none from by decide]

/-- C3 witness: the amended statement applied to the same 1×1 board, where
the left move is blocked by the wall and is a no-op. -/
theorem moveBlocked_behavior_witness :
    movePieceLeft exBoard1 exPieceSingle = exPieceSingle :=
  (moveBlocked_behavior exBoard1 exPieceSingle).1 (by decide)

/-! ## C4: double rotation -/

/-- C4 (amended): for a piece already in the canonical vertical layout
`[(0,0),(1,0)]` with rotation 0, if both rotations succeed at the
unmodified anchor (no wall kick), rotating twice returns exactly the
original piece.  (The spawn layout `[(0,2),(1,2)]` of `createRandomPiece`
is *not* restored — see the counterexample.) -/
theorem rotate_twice_id (b : Board) (p : Piece)
    (hrot : p.rotation = 0) (hpos : p.positions = [(0, 0), (1, 0)])
    (h1 : canPlacePiece b { p with rotation := 1, positions := [(0, 0), (0, 1)] } = true)
    (h2 : canPlacePiece b p = true) :
    rotatePiece p b = some { p with rotation := 1, positions := [(0, 0), (0, 1)] } ∧
    rotatePiece { p with rotation := 1, positions := [(0, 0), (0, 1)] } b = some p := by
  obtain ⟨pos, cols, rot, x, y⟩ := p
  simp only at hrot hpos
  subst hrot hpos
  dsimp only at h1 h2 ⊢
  simp only [Prod.mk_zero_zero] at h1 h2
  constructor <;> simp [rotatePiece, h1, h2]

/-- C4 counterexample: the freshly spawned piece (layout `[(0,2),(1,2)]`)
rotates twice on an empty board with no wall kick, yet ends in layout
`[(0,0),(1,0)]` — different relative cells (and different absolute cells)
from the original. -/
theorem rotate_twice_spawn_not_id :
    rotatePiece (createPiece PuyoColor.red PuyoColor.blue) createBoard =
      some { createPiece PuyoColor.red PuyoColor.blue with
              rotation := 1, positions := [(0, 0), (0, 1)] } ∧
    rotatePiece { createPiece PuyoColor.red PuyoColor.blue with
              rotation := 1, positions := [(0, 0), (0, 1)] } createBoard =
      some { createPiece PuyoColor.red PuyoColor.blue with positions := [(0, 0), (1, 0)] } ∧
    ({ createPiece PuyoColor.red PuyoColor.blue with
        positions := [(0, 0), (1, 0)] } : Piece).positions ≠
      (createPiece PuyoColor.red PuyoColor.blue).positions := by
  refine ⟨by decide, by decide, by decide⟩

/-- C4 witness: a canonical vertical piece on an empty 2×2 board, where both
rotations succeed at the anchor, really returns to its original layout. -/
theorem rotate_twice_id_witness :
    rotatePiece { exPieceVert with rotation := 1, positions := [(0, 0), (0, 1)] } exBoard2x2 =
      some exPieceVert :=
  (rotate_twice_id exBoard2x2 exPieceVert (by decide) (by decide) (by decide) (by decide)).2

/-! ## C5: the evaluator's height-penalty term is identically zero -/

lemma highestPiece_eq_zero (b : Board) : highestPiece b = 0 := by
  unfold highestPiece
  have key : ∀ l : List Coord, (∀ q ∈ l, 0 ≤ q.1) →
      l.foldl (fun acc q =>
        if !(getCell b q.1 q.2 == PuyoColor.empty) then min acc q.1 else acc) 0 = 0 := by
    intro l
    induction l with
    | nil => intro _; rfl
    | cons a t ih =>
      intro h
      have ha : 0 ≤ a.1 := h a (by simp)
      have : (if !(getCell b a.1 a.2 == PuyoColor.empty) then min 0 a.1 else 0) = 0 := by
        split <;> simp [min_eq_left ha, ha]
      simp only [List.foldl_cons, this]
      exact ih fun q hq => h q (by simp [hq])
  exact key _ fun q hq => (allCells_nonneg b q hq).1

/-- C5: the heuristic does not penalize board height at all.  `highestPiece`
is identically zero (it is seeded with 0 and `Math.min`-ed against
nonnegative row indices), so two boards differing only in maximal column
height — `exBoardFlat` (height 1) and `exBoardFull` (height 2), both with
uniform columns and no cascade — receive *equal* scores, where the claimed
formula `W1·depth − W2·maxHeight − W3·variance` with `W2 > 0` demands a
strictly lower score for the taller board. -/
theorem evaluateBoard_ignores_height :
    (∀ b : Board, highestPiece b = 0) ∧
    maxColumnHeight exBoardFlat = 1 ∧
    maxColumnHeight exBoardFull = 2 ∧
    evaluateBoard exBoardFlat 0 = evaluateBoard exBoardFull 0 := by
  refine ⟨highestPiece_eq_zero, by decide, by decide, ?_⟩
  have d1 : definedCols exBoardFlat = [0, 1] := by decide
  have d2 : definedCols exBoardFull = [0, 1] := by decide
  have c1 : colHeight exBoardFlat 0 = some 1 := by decide
  have c2 : colHeight exBoardFlat 1 = some 1 := by decide
  have c3 : colHeight exBoardFull 0 = some 1 := by decide
  have c4 : colHeight exBoardFull 1 = some 1 := by decide
  have l1 : colHeightsLen exBoardFlat = 2 := by decide
  have l2 : colHeightsLen exBoardFull = 2 := by decide
  have h1 : highestPiece exBoardFlat = 0 := by decide
  have h2 : highestPiece exBoardFull = 0 := by decide
  simp only [evaluateBoard, d1, d2, c1, c2, c3, c4, l1, l2, h1, h2]
  norm_num
  simp [c1, c2, c3, c4]

/-! ## C7: gravity compaction is idempotent -/

lemma countP_decide_not (p : PuyoColor → Bool) (l : List PuyoColor) :
    l.countP (fun a => decide ¬(p a = true)) = l.countP (fun a => !(p a)) := by
  apply List.countP_congr
  intro a _
  by_cases h : p a = true <;> simp [h]

lemma compactColumn_length (l : List PuyoColor) : (compactColumn l).length = l.length := by
  unfold compactColumn
  rw [List.length_append, List.length_replicate, ← List.countP_eq_length_filter,
    ← countP_decide_not (fun v => v == PuyoColor.empty) l,
    ← List.length_eq_countP_add_countP]

lemma countP_compactColumn (p : PuyoColor → Bool) (hpe : p PuyoColor.empty = false)
    (l : List PuyoColor) : (compactColumn l).countP p = l.countP p := by
  unfold compactColumn
  rw [List.countP_append, List.countP_replicate, List.countP_filter, hpe]
  simp only [Bool.false_eq_true, if_false, Nat.zero_add]
  apply List.countP_congr
  intro a _
  by_cases h : a = PuyoColor.empty
  · subst h; simp [hpe]
  · simp [h]

lemma compactColumn_idem (l : List PuyoColor) :
    compactColumn (compactColumn l) = compactColumn l := by
  have h1 : (compactColumn l).countP (· == PuyoColor.empty) =
      l.countP (· == PuyoColor.empty) := by
    unfold compactColumn
    rw [List.countP_append, List.countP_replicate, List.countP_filter]
    simp
  have h2 : (compactColumn l).filter (fun v => !(v == PuyoColor.empty)) =
      l.filter (fun v => !(v == PuyoColor.empty)) := by
    unfold compactColumn
    rw [List.filter_append, List.filter_replicate, List.filter_filter]
    simp
  calc compactColumn (compactColumn l)
      = List.replicate ((compactColumn l).countP (· == PuyoColor.empty)) PuyoColor.empty ++
        (compactColumn l).filter (fun v => !(v == PuyoColor.empty)) := rfl
    _ = compactColumn l := by rw [h1, h2]; rfl

lemma getD_map_range {α : Type _} (n : Nat) (f : Nat → α) (i : Nat) (d : α) (h : i < n) :
    ((List.range n).map f).getD i d = f i := by
  rw [List.getD_eq_getElem _ _ (by simpa using h)]
  simp

lemma map_getD_range {α : Type _} (l : List α) (d : α) :
    (List.range l.length).map (fun i => l.getD i d) = l := by
  apply List.ext_getElem
  · simp
  · intro n h1 h2
    rw [List.getElem_map, List.getElem_range, List.getD_eq_getElem l d h2]

lemma getColumn_length (b : Board) (c : Nat) : (getColumn b c).length = b.grid.length := by
  simp [getColumn]

lemma applyGravity_WF (b : Board) : (applyGravity b).WF := by
  constructor
  · simp [applyGravity]
  · intro row hrow
    simp only [applyGravity, List.mem_map] at hrow
    obtain ⟨r, _, rfl⟩ := hrow
    simp [applyGravity]

lemma getColumn_applyGravity (b : Board) (hWF : b.WF) (c : Nat) (hc : c < b.width) :
    getColumn (applyGravity b) c = compactColumn (getColumn b c) := by
  unfold getColumn
  show ((List.range b.height).map fun r =>
      (List.range b.width).map fun c' =>
        (compactColumn (getColumn b c')).getD r PuyoColor.empty).map
      (fun row => row.getD c PuyoColor.empty) = _
  rw [List.map_map]
  have hlen : (compactColumn (getColumn b c)).length = b.height := by
    rw [compactColumn_length, getColumn_length, hWF.1]
  calc ((List.range b.height).map fun r =>
        ((List.range b.width).map fun c' =>
          (compactColumn (getColumn b c')).getD r PuyoColor.empty).getD c PuyoColor.empty)
      = (List.range b.height).map fun r =>
          (compactColumn (getColumn b c)).getD r PuyoColor.empty := by
        apply List.map_congr_left
        intro r _
        exact getD_map_range b.width _ c PuyoColor.empty hc
    _ = compactColumn (getColumn b c) := by
        rw [← hlen]
        exact map_getD_range _ PuyoColor.empty

/-- C7: gravity compaction is idempotent on every well-formed grid. -/
theorem applyGravity_idem (b : Board) (hWF : b.WF) :
    applyGravity (applyGravity b) = applyGravity b := by
  show Board.mk _ _ _ = _
  unfold applyGravity
  simp only
  congr 1
  apply List.map_congr_left
  intro r _
  apply List.map_congr_left
  intro c hc
  rw [show (Board.mk ((List.range b.height).map fun r =>
      (List.range b.width).map fun c =>
        (compactColumn (getColumn b c)).getD r PuyoColor.empty) b.width b.height) =
      applyGravity b from rfl,
    getColumn_applyGravity b hWF c (List.mem_range.mp hc), compactColumn_idem]

/-- C7 witness: idempotence at a concrete board with floating cells. -/
theorem applyGravity_idem_witness :
    applyGravity (applyGravity exBoardGravity) = applyGravity exBoardGravity :=
  applyGravity_idem exBoardGravity (by decide)

/-! ## C10: `placePiece` is total — in-bounds writes only, frame preserved -/

lemma isValidPosition_iff (b : Board) (r c : Int) :
    isValidPosition b r c = true ↔
      0 ≤ r ∧ r < (b.height : Int) ∧ 0 ≤ c ∧ c < (b.width : Int) := by
  simp [isValidPosition, and_assoc]

lemma setCell_WF {b : Board} (hWF : b.WF) (r c : Int) (v : PuyoColor) :
    (setCell b r c v).WF := by
  obtain ⟨h1, h2⟩ := hWF
  constructor
  · rw [setCell_grid_length]; exact h1
  · intro row hrow
    simp only [setCell] at hrow
    by_cases hr : r.toNat < b.grid.length
    · rcases List.mem_or_eq_of_mem_set hrow with h | h
      · exact h2 row h
      · subst h
        rw [List.length_set, List.getD_eq_getElem _ _ hr]
        exact h2 _ (List.getElem_mem hr)
    · rw [List.set_eq_of_length_le (le_of_not_lt hr)] at hrow
      exact h2 row hrow


lemma placeGo_width (p : Piece) :
    ∀ (ps : List Coord) (i : Nat) (nb : Board), (placeGo p i ps nb).width = nb.width := by
  intro ps
  induction ps with
  | nil => intro i nb; rfl
  | cons pos rest ih =>
    intro i nb
    simp only [placeGo]
    rw [ih]
    split <;> rfl

lemma placeGo_height (p : Piece) :
    ∀ (ps : List Coord) (i : Nat) (nb : Board), (placeGo p i ps nb).height = nb.height := by
  intro ps
  induction ps with
  | nil => intro i nb; rfl
  | cons pos rest ih =>
    intro i nb
    simp only [placeGo]
    rw [ih]
    split <;> rfl

lemma placeGo_grid_length (p : Piece) :
    ∀ (ps : List Coord) (i : Nat) (nb : Board),
      (placeGo p i ps nb).grid.length = nb.grid.length := by
  intro ps
  induction ps with
  | nil => intro i nb; rfl
  | cons pos rest ih =>
    intro i nb
    simp only [placeGo]
    rw [ih]
    split
    · rw [setCell_grid_length]
    · rfl

lemma placeGo_row_length (p : Piece) :
    ∀ (ps : List Coord) (i : Nat) (nb : Board) (j : Nat),
      ((placeGo p i ps nb).grid.getD j []).length = (nb.grid.getD j []).length := by
  intro ps
  induction ps with
  | nil => intro i nb j; rfl
  | cons pos rest ih =>
    intro i nb j
    simp only [placeGo]
    rw [ih]
    split
    · rw [setCell_row_length]
    · rfl

lemma placeGo_WF (p : Piece) :
    ∀ (ps : List Coord) (i : Nat) (nb : Board), nb.WF → (placeGo p i ps nb).WF := by
  intro ps
  induction ps with
  | nil => intro i nb h; exact h
  | cons pos rest ih =>
    intro i nb h
    simp only [placeGo]
    apply ih
    split
    · exact setCell_WF h _ _ _
    · exact h

lemma placeGo_frame (p : Piece) :
    ∀ (ps : List Coord) (i : Nat) (nb : Board) (r c : Int), 0 ≤ r → 0 ≤ c →
      (∀ pos ∈ ps, (p.y + pos.1, p.x + pos.2) ≠ (r, c)) →
      getCell (placeGo p i ps nb) r c = getCell nb r c := by
  intro ps
  induction ps with
  | nil => intro i nb r c _ _ _; rfl
  | cons pos rest ih =>
    intro i nb r c hr hc hnot
    simp only [placeGo]
    rw [ih (i + 1) _ r c hr hc fun q hq => hnot q (by simp [hq])]
    split
    · next hvalid =>
      obtain ⟨h1, _, h3, _⟩ := (isValidPosition_iff _ _ _).mp hvalid
      exact getCell_setCell_ne nb _ _ _ r c h1 h3 hr hc (hnot pos (by simp))
    · rfl

lemma WF_row_length {b : Board} (hWF : b.WF) {j : Nat} (hj : j < b.grid.length) :
    (b.grid.getD j []).length = b.width := by
  rw [List.getD_eq_getElem _ _ hj]
  exact hWF.2 _ (List.getElem_mem hj)

lemma getCell_setCell_valid {b : Board} (hWF : b.WF) {r c : Int} (v : PuyoColor)
    (hvalid : isValidPosition b r c = true) :
    getCell (setCell b r c v) r c = v := by
  obtain ⟨h1, h2, h3, h4⟩ := (isValidPosition_iff _ _ _).mp hvalid
  have hrn : r.toNat < b.grid.length := by
    rw [hWF.1]; omega
  have hcn : c.toNat < (b.grid.getD r.toNat []).length := by
    rw [WF_row_length hWF hrn]; omega
  rw [getCell_setCell, if_pos ⟨rfl, hrn, rfl, hcn⟩]

lemma placeGo_write (p : Piece) :
    ∀ (ps : List Coord) (i : Nat) (nb : Board), nb.WF →
      (ps.map fun pos => (p.y + pos.1, p.x + pos.2)).Nodup →
      ∀ (k : Nat) (hk : k < ps.length),
        isValidPosition nb (p.y + (ps.get ⟨k, hk⟩).1) (p.x + (ps.get ⟨k, hk⟩).2) = true →
        getCell (placeGo p i ps nb) (p.y + (ps.get ⟨k, hk⟩).1) (p.x + (ps.get ⟨k, hk⟩).2) =
          p.colors.getD (i + k) PuyoColor.empty := by
  intro ps
  induction ps with
  | nil => intro i nb _ _ k hk; exact absurd hk (by simp)
  | cons pos rest ih =>
    intro i nb hWF hnodup k hk hvalid
    match k with
    | 0 =>
      simp only [List.get] at hvalid ⊢
      simp only [placeGo, hvalid, if_true]
      obtain ⟨h1, _, h3, _⟩ := (isValidPosition_iff _ _ _).mp hvalid
      rw [placeGo_frame p rest (i + 1) _ _ _ h1 h3 ?_]
      · rw [Nat.add_zero]
        exact getCell_setCell_valid hWF _ hvalid
      · intro q hq heq
        apply (List.nodup_cons.mp hnodup).1
        rw [List.mem_map]
        exact ⟨q, hq, heq⟩
    | Nat.succ k' =>
      simp only [List.get] at hvalid ⊢
      simp only [placeGo]
      have hk' : k' < rest.length := by simpa using hk
      have harith : i + (k' + 1) = (i + 1) + k' := by omega
      rw [harith]
      set nb' := if isValidPosition nb (p.y + pos.1) (p.x + pos.2) then
          setCell nb (p.y + pos.1) (p.x + pos.2) (p.colors.getD i PuyoColor.empty)
        else nb with hnb'
      have hWF' : nb'.WF := by
        rw [hnb']; split
        · exact setCell_WF hWF _ _ _
        · exact hWF
      have hvalid' : isValidPosition nb' (p.y + (rest.get ⟨k', hk'⟩).1)
          (p.x + (rest.get ⟨k', hk'⟩).2) = true := by
        rw [← hvalid]
        apply isValidPosition_congr
        · rw [hnb']; split <;> rfl
        · rw [hnb']; split <;> rfl
      exact ih (i + 1) nb' hWF' (List.nodup_cons.mp hnodup).2 k' hk' hvalid'

/-- C10: `placePiece` is total and well-behaved on every input, even when
`canPlace` is false: it preserves the grid dimensions, leaves every cell
outside the piece's footprint unchanged, and writes `colors[k]` exactly at
each in-bounds footprint cell (out-of-bounds piece cells are skipped, never
accessed). -/
theorem placePiece_total (b : Board) (p : Piece) :
    (placePiece b p).width = b.width ∧
    (placePiece b p).height = b.height ∧
    (placePiece b p).grid.length = b.grid.length ∧
    (∀ j : Nat, ((placePiece b p).grid.getD j []).length = (b.grid.getD j []).length) ∧
    (∀ r c : Int, 0 ≤ r → 0 ≤ c → (r, c) ∉ footprint p →
      getCell (placePiece b p) r c = getCell b r c) ∧
    (b.WF → (footprint p).Nodup →
      ∀ (k : Nat) (hk : k < p.positions.length),
        isValidPosition b (p.y + (p.positions.get ⟨k, hk⟩).1)
            (p.x + (p.positions.get ⟨k, hk⟩).2) = true →
        getCell (placePiece b p) (p.y + (p.positions.get ⟨k, hk⟩).1)
            (p.x + (p.positions.get ⟨k, hk⟩).2) = p.colors.getD k PuyoColor.empty) := by
  refine ⟨placeGo_width p _ 0 b, placeGo_height p _ 0 b, placeGo_grid_length p _ 0 b,
    fun j => placeGo_row_length p _ 0 b j, ?_, ?_⟩
  · intro r c hr hc hnot
    apply placeGo_frame p _ 0 b r c hr hc
    intro pos hpos heq
    apply hnot
    rw [footprint, List.mem_map]
    exact ⟨pos, hpos, heq⟩
  · intro hWF hnodup k hk hvalid
    have hres := placeGo_write p p.positions 0 b hWF hnodup k hk hvalid
    rwa [Nat.zero_add] at hres

/-- C10 witness: on a concrete 2×2 board, placing the vertical piece writes
its colors at its footprint cells and leaves another cell untouched. -/
theorem placePiece_total_witness :
    getCell (placePiece exBoard2x2 exPieceVert) 0 1 = getCell exBoard2x2 0 1 ∧
    getCell (placePiece exBoard2x2 exPieceVert) 1 0 = PuyoColor.blue := by
  constructor
  · exact (placePiece_total exBoard2x2 exPieceVert).2.2.2.2.1 0 1 (by decide) (by decide)
      (by decide)
  · exact (placePiece_total exBoard2x2 exPieceVert).2.2.2.2.2 (by decide) (by decide) 1
      (by decide) (by decide)

/-! ## C8, C9: candidate enumeration and greedy selection -/

lemma scoreOf_def (b : Board) (m : Piece) :
    scoreOf b m = evaluateBoard (simulateDrop b m).1 (simulateDrop b m).2 := rfl

attribute [irreducible] scoreOf

lemma movePieceLeft_cases (b : Board) (p : Piece) :
    movePieceLeft b p = p ∨ movePieceLeft b p = { p with x := p.x - 1 } := by
  simp only [movePieceLeft]
  split
  · exact Or.inr rfl
  · exact Or.inl rfl

lemma movePieceRight_cases (b : Board) (p : Piece) :
    movePieceRight b p = p ∨ movePieceRight b p = { p with x := p.x + 1 } := by
  simp only [movePieceRight]
  split
  · exact Or.inr rfl
  · exact Or.inl rfl

lemma slideLeft_x_lt (b : Board) :
    ∀ (fuel : Nat) (cur : Piece), ∀ m ∈ slideLeft b fuel cur, m.x < cur.x := by
  intro fuel
  induction fuel with
  | zero => intro cur m hm; simp [slideLeft] at hm
  | succ n ih =>
    intro cur m hm
    simp only [slideLeft] at hm
    split at hm
    · simp at hm
    · next hne =>
      have hl : (movePieceLeft b cur).x = cur.x - 1 := by
        rcases movePieceLeft_cases b cur with h | h
        · rw [h] at hne; exact absurd rfl hne
        · rw [h]
      rcases List.mem_cons.mp hm with rfl | hm'
      · omega
      · have := ih _ m hm'
        omega

lemma slideRight_x_gt (b : Board) :
    ∀ (fuel : Nat) (cur : Piece), ∀ m ∈ slideRight b fuel cur, cur.x < m.x := by
  intro fuel
  induction fuel with
  | zero => intro cur m hm; simp [slideRight] at hm
  | succ n ih =>
    intro cur m hm
    simp only [slideRight] at hm
    split at hm
    · simp at hm
    · next hne =>
      have hr : (movePieceRight b cur).x = cur.x + 1 := by
        rcases movePieceRight_cases b cur with h | h
        · rw [h] at hne; exact absurd rfl hne
        · rw [h]
      rcases List.mem_cons.mp hm with rfl | hm'
      · omega
      · have := ih _ m hm'
        omega

lemma getPossibleMoves_x_ne (b : Board) (p : Piece) :
    ∀ m ∈ getPossibleMoves b p, m.x ≠ p.x := by
  intro m hm
  rcases List.mem_append.mp hm with h | h
  · have := slideLeft_x_lt b _ p m h
    omega
  · have := slideRight_x_gt b _ p m h
    omega

lemma slideLeft_succ_nil_iff (b : Board) (n : Nat) (p : Piece) :
    slideLeft b (n + 1) p = [] ↔ movePieceLeft b p = p := by
  constructor
  · intro h
    simp only [slideLeft] at h
    split at h
    · next hx =>
      rcases movePieceLeft_cases b p with hc | hc
      · exact hc
      · rw [hc] at hx; simp at hx
    · simp at h
  · intro h
    simp [slideLeft, h]

lemma slideRight_succ_nil_iff (b : Board) (n : Nat) (p : Piece) :
    slideRight b (n + 1) p = [] ↔ movePieceRight b p = p := by
  constructor
  · intro h
    simp only [slideRight] at h
    split at h
    · next hx =>
      rcases movePieceRight_cases b p with hc | hc
      · exact hc
      · rw [hc] at hx; simp at hx
    · simp at h
  · intro h
    simp [slideRight, h]

lemma getPossibleMoves_nil_iff (b : Board) (p : Piece) :
    getPossibleMoves b p = [] ↔ movePieceLeft b p = p ∧ movePieceRight b p = p := by
  unfold getPossibleMoves slideFuel
  rw [List.append_eq_nil]
  rw [slideLeft_succ_nil_iff, slideRight_succ_nil_iff]

lemma chooseStep_fst (b : Board) (acc : Piece × JSVal) (m : Piece) :
    (chooseStep b acc m).1 = m ∨ (chooseStep b acc m).1 = acc.1 := by
  simp only [chooseStep]
  split
  · exact Or.inl rfl
  · exact Or.inr rfl

lemma chooseStep_snd (b : Board) (acc : Piece × JSVal) (m : Piece) :
    (chooseStep b acc m).2 = scoreOf b m ∨ (chooseStep b acc m).2 = acc.2 := by
  simp only [chooseStep]
  split
  · exact Or.inl rfl
  · exact Or.inr rfl

lemma chooseStep_eq_acc (b : Board) (acc : Piece × JSVal) (m : Piece)
    (h : jsGt (scoreOf b m) acc.2 = false) : chooseStep b acc m = acc := by
  simp only [chooseStep]
  rw [h]
  simp

lemma chooseStep_eq_update (b : Board) (acc : Piece × JSVal) (m : Piece)
    (h : jsGt (scoreOf b m) acc.2 = true) : chooseStep b acc m = (m, scoreOf b m) := by
  simp only [chooseStep]
  rw [h]
  simp

lemma chooseStep_fold_mem (b : Board) :
    ∀ (l : List Piece) (acc : Piece × JSVal),
      (l.foldl (chooseStep b) acc).1 = acc.1 ∨ (l.foldl (chooseStep b) acc).1 ∈ l := by
  intro l
  induction l with
  | nil => intro acc; exact Or.inl rfl
  | cons m t ih =>
    intro acc
    rw [List.foldl_cons]
    rcases ih (chooseStep b acc m) with h | h
    · rcases chooseStep_fst b acc m with h' | h'
      · exact Or.inr (by simp [h, h'])
      · exact Or.inl (by rw [h, h'])
    · exact Or.inr (by simp [h])

lemma chooseStep_fold_score (b : Board) :
    ∀ (l : List Piece) (acc : Piece × JSVal),
      (l.foldl (chooseStep b) acc).2 = acc.2 ∨
      ∃ m ∈ l, (l.foldl (chooseStep b) acc).2 = scoreOf b m := by
  intro l
  induction l with
  | nil => intro acc; exact Or.inl rfl
  | cons m t ih =>
    intro acc
    rw [List.foldl_cons]
    rcases ih (chooseStep b acc m) with h | ⟨m', hm', h⟩
    · rcases chooseStep_snd b acc m with h' | h'
      · exact Or.inr ⟨m, by simp, by rw [h, h']⟩
      · exact Or.inl (by rw [h, h'])
    · exact Or.inr ⟨m', by simp [hm'], h⟩

lemma chooseStep_fold_keep (b : Board) :
    ∀ (l : List Piece) (acc : Piece × JSVal),
      (∀ m ∈ l, jsGt (scoreOf b m) acc.2 = false) →
      l.foldl (chooseStep b) acc = acc := by
  intro l
  induction l with
  | nil => intro acc _; rfl
  | cons m t ih =>
    intro acc h
    rw [List.foldl_cons, chooseStep_eq_acc b acc m (h m (by simp))]
    exact ih acc fun m' hm' => h m' (by simp [hm'])

lemma findBestMove_eq_fold (b : Board) (p m0 : Piece) (rest : List Piece)
    (hmv : getPossibleMoves b p = m0 :: rest) :
    findBestMove b p = ((m0 :: rest).foldl (chooseStep b) (m0, JSVal.ninf)).1 := by
  unfold findBestMove
  rw [hmv]

lemma findBestMove_nil (b : Board) (p : Piece)
    (hmv : getPossibleMoves b p = []) : findBestMove b p = p := by
  unfold findBestMove
  rw [hmv]

lemma jsGt_irrefl (v : JSVal) : jsGt v v = false := by
  cases v <;> simp [jsGt]

lemma evaluateBoard_isNum (b : Board) (n : Nat) (h1 : definedCols b ≠ [])
    (h2 : (colHeight b 0).isSome = true) :
    ∃ q : ℚ, evaluateBoard b n = JSVal.num q := by
  unfold evaluateBoard
  rcases hd : definedCols b with _ | ⟨a, t⟩
  · exact absurd hd h1
  · rcases hc : colHeight b 0 with _ | h0
    · rw [hc] at h2; simp at h2
    · exact ⟨_, rfl⟩

/-- C9: every candidate produced by `getPossibleMoves` sits strictly left or
strictly right of the piece's starting column (never the starting column),
and `findBestMove` returns the unmoved input piece exactly when neither a
left nor a right step is possible. -/
theorem getPossibleMoves_excludes_start (b : Board) (p : Piece) :
    (∀ m ∈ getPossibleMoves b p, m.x ≠ p.x) ∧
    (findBestMove b p = p ↔ movePieceLeft b p = p ∧ movePieceRight b p = p) := by
  refine ⟨getPossibleMoves_x_ne b p, ?_, ?_⟩
  · intro hbest
    rw [← getPossibleMoves_nil_iff]
    by_contra hne
    rcases hmv : getPossibleMoves b p with _ | ⟨m0, rest⟩
    · exact hne hmv
    · have hmem : findBestMove b p = m0 ∨ findBestMove b p ∈ m0 :: rest := by
        rw [findBestMove_eq_fold b p m0 rest hmv]
        exact chooseStep_fold_mem b (m0 :: rest) (m0, JSVal.ninf)
      have hin : findBestMove b p ∈ getPossibleMoves b p := by
        rw [hmv]
        rcases hmem with h | h
        · simp [h]
        · exact h
      have hxne := getPossibleMoves_x_ne b p _ hin
      rw [hbest] at hxne
      exact hxne rfl
  · intro hblocked
    exact findBestMove_nil b p ((getPossibleMoves_nil_iff b p).mpr hblocked)

/-- C9 witness: for a piece walled in on a 1×1 board, `findBestMove` returns
the unmoved piece; instantiated through the theorem. -/
theorem getPossibleMoves_excludes_start_witness :
    findBestMove exBoard1 exPieceSingle = exPieceSingle :=
  (getPossibleMoves_excludes_start exBoard1 exPieceSingle).2.mpr ⟨by decide, by decide⟩

/-- C8: when every candidate's score is a real number, `findBestMove`
returns the *first* candidate — in the slide-left-then-slide-right
enumeration order of `getPossibleMoves` — whose score no other candidate
exceeds; in particular, ties are resolved in favor of the first-generated
candidate. -/
theorem findBestMove_first_of_max (b : Board) (p : Piece) (l1 l2 : List Piece) (m : Piece)
    (hsplit : getPossibleMoves b p = l1 ++ m :: l2)
    (hnum : ∀ m' ∈ getPossibleMoves b p, ∃ q : ℚ, scoreOf b m' = JSVal.num q)
    (hfirst : ∀ m' ∈ l1, jsGt (scoreOf b m) (scoreOf b m') = true)
    (hmax : ∀ m' ∈ getPossibleMoves b p, jsGt (scoreOf b m') (scoreOf b m) = false) :
    findBestMove b p = m := by
  rcases hmv : getPossibleMoves b p with _ | ⟨m0, rest⟩
  · rw [hmv] at hsplit
    exact absurd hsplit.symm (List.append_ne_nil_of_right_ne_nil l1 (by simp))
  · rw [findBestMove_eq_fold b p m0 rest hmv]
    have hsplit' : m0 :: rest = l1 ++ m :: l2 := by rw [← hmv, hsplit]
    rw [hsplit', List.foldl_append, List.foldl_cons]
    have hgt : jsGt (scoreOf b m) (l1.foldl (chooseStep b) (m0, JSVal.ninf)).2 = true := by
      rcases chooseStep_fold_score b l1 (m0, JSVal.ninf) with h | ⟨m', hm', h⟩
      · rw [h]
        obtain ⟨q, hq⟩ := hnum m (by rw [hsplit]; simp)
        rw [hq]
        rfl
      · rw [h]
        exact hfirst m' hm'
    rw [chooseStep_eq_update b _ m hgt]
    have hkeep := chooseStep_fold_keep b l2 (m, scoreOf b m) fun m' hm' =>
      hmax m' (by rw [hsplit]; simp [hm'])
    rw [hkeep]

/-- C8 witness: on the garbage-bottomed 3×2 board both candidates (slide
left to column 0, slide right to column 2) score `num 0`; the tie is
resolved in favor of the first-generated candidate, column 0. -/
theorem findBestMove_first_of_max_witness :
    findBestMove exBoardBottomGarbage exPieceMid =
      ⟨[(0, 0)], [PuyoColor.red], 0, 0, 0⟩ := by
  have hsplit : getPossibleMoves exBoardBottomGarbage exPieceMid =
      [] ++ (⟨[(0, 0)], [PuyoColor.red], 0, 0, 0⟩ : Piece) ::
        [⟨[(0, 0)], [PuyoColor.red], 0, 2, 0⟩] := by decide
  have hs0 : simulateDrop exBoardBottomGarbage ⟨[(0, 0)], [PuyoColor.red], 0, 0, 0⟩ =
      (⟨[[PuyoColor.red, PuyoColor.empty, PuyoColor.empty],
         [PuyoColor.garbage, PuyoColor.garbage, PuyoColor.garbage]], 3, 2⟩, 0) := by decide
  have hs2 : simulateDrop exBoardBottomGarbage ⟨[(0, 0)], [PuyoColor.red], 0, 2, 0⟩ =
      (⟨[[PuyoColor.empty, PuyoColor.empty, PuyoColor.red],
         [PuyoColor.garbage, PuyoColor.garbage, PuyoColor.garbage]], 3, 2⟩, 0) := by decide
  set B0 : Board := ⟨[[PuyoColor.red, PuyoColor.empty, PuyoColor.empty],
    [PuyoColor.garbage, PuyoColor.garbage, PuyoColor.garbage]], 3, 2⟩ with hB0
  set B2 : Board := ⟨[[PuyoColor.empty, PuyoColor.empty, PuyoColor.red],
    [PuyoColor.garbage, PuyoColor.garbage, PuyoColor.garbage]], 3, 2⟩ with hB2
  have e0 : scoreOf exBoardBottomGarbage ⟨[(0, 0)], [PuyoColor.red], 0, 0, 0⟩ =
      evaluateBoard B0 0 := by rw [scoreOf_def, hs0]
  have e2 : scoreOf exBoardBottomGarbage ⟨[(0, 0)], [PuyoColor.red], 0, 2, 0⟩ =
      evaluateBoard B2 0 := by rw [scoreOf_def, hs2]
  have d0 : definedCols B0 = [0, 1, 2] := by decide
  have d2 : definedCols B2 = [0, 1, 2] := by decide
  have c00 : colHeight B0 0 = some 1 := by decide
  have c01 : colHeight B0 1 = some 1 := by decide
  have c02 : colHeight B0 2 = some 1 := by decide
  have c20 : colHeight B2 0 = some 1 := by decide
  have c21 : colHeight B2 1 = some 1 := by decide
  have c22 : colHeight B2 2 = some 1 := by decide
  have l0 : colHeightsLen B0 = 3 := by decide
  have l2' : colHeightsLen B2 = 3 := by decide
  have heq : evaluateBoard B0 0 = evaluateBoard B2 0 := by
    simp only [evaluateBoard, d0, d2, c00, c01, c02, c20, c21, c22, l0, l2',
      highestPiece_eq_zero, List.map_cons, List.map_nil, List.sum_cons, List.sum_nil,
      Option.getD_some]
  apply findBestMove_first_of_max exBoardBottomGarbage exPieceMid []
    [⟨[(0, 0)], [PuyoColor.red], 0, 2, 0⟩] ⟨[(0, 0)], [PuyoColor.red], 0, 0, 0⟩ hsplit
  · intro m' hm'
    rw [hsplit] at hm'
    simp only [List.nil_append, List.mem_cons] at hm'
    rcases hm' with rfl | rfl | hnil
    · rw [e0]
      exact evaluateBoard_isNum B0 0 (by decide) (by decide)
    · rw [e2]
      exact evaluateBoard_isNum B2 0 (by decide) (by decide)
    · exact absurd hnil (List.not_mem_nil _)
  · intro m' hm'
    exact absurd hm' (List.not_mem_nil m')
  · intro m' hm'
    rw [hsplit] at hm'
    simp only [List.nil_append, List.mem_cons] at hm'
    rcases hm' with rfl | rfl | hnil
    · exact jsGt_irrefl _
    · rw [e2, e0, ← heq]
      exact jsGt_irrefl _
    · exact absurd hnil (List.not_mem_nil _)

/-! ## Flood-fill correctness (C1, C2, C6) -/

lemma okCell_valid {b : Board} {c : PuyoColor} {q : Coord} (h : okCell b c q) :
    isValidPosition b q.1 q.2 = true := h.1

lemma Reach.src_ok {b : Board} {c : PuyoColor} {p q : Coord} (h : Reach b c p q) :
    okCell b c p := by
  induction h with
  | refl h => exact h
  | tail _ _ _ ih => exact ih

lemma Reach.dst_ok {b : Board} {c : PuyoColor} {p q : Coord} (h : Reach b c p q) :
    okCell b c q := by
  induction h with
  | refl h => exact h
  | tail _ _ hok _ => exact hok

lemma Reach.trans {b : Board} {c : PuyoColor} {p q r : Coord}
    (h1 : Reach b c p q) (h2 : Reach b c q r) : Reach b c p r := by
  induction h2 with
  | refl _ => exact h1
  | tail _ hmem hok ih => exact Reach.tail ih hmem hok

lemma neighbors_symm {p q : Coord} (h : q ∈ neighbors p) : p ∈ neighbors q := by
  simp only [neighbors, List.mem_cons, List.not_mem_nil, or_false] at h ⊢
  obtain ⟨p1, p2⟩ := p
  rcases h with rfl | rfl | rfl | rfl <;> simp [Prod.ext_iff]

lemma Reach.symm {b : Board} {c : PuyoColor} {p q : Coord} (h : Reach b c p q) :
    Reach b c q p := by
  induction h with
  | refl h => exact Reach.refl _ h
  | tail h1 hmem hok ih =>
    exact Reach.trans (Reach.tail (Reach.refl _ hok) (neighbors_symm hmem) h1.dst_ok) ih

/-- Closure of a coordinate set under reachability out of one of its
members. -/
lemma reach_closed {b : Board} {c : PuyoColor} {S : Finset Coord}
    (hclosed : ∀ q ∈ S, ∀ r ∈ neighbors q, okCell b c r → r ∈ S)
    {p q : Coord} (hp : p ∈ S) (h : Reach b c p q) : q ∈ S := by
  induction h with
  | refl _ => exact hp
  | tail h1 hmem hok ih => exact hclosed _ ih _ hmem hok

/-- The in-bounds coordinates of a board, as a finite set. -/
def validCells (b : Board) : Finset Coord :=
  Finset.Icc (0 : Int) ((b.height : Int) - 1) ×ˢ Finset.Icc (0 : Int) ((b.width : Int) - 1)

lemma mem_validCells (b : Board) (q : Coord) :
    q ∈ validCells b ↔ isValidPosition b q.1 q.2 = true := by
  rw [validCells, Finset.mem_product, Finset.mem_Icc, Finset.mem_Icc, isValidPosition_iff]
  omega

lemma card_validCells (b : Board) : (validCells b).card = b.height * b.width := by
  have e1 : ((b.height : Int) - 1 + 1 - 0) = (b.height : Int) := by ring
  have e2 : ((b.width : Int) - 1 + 1 - 0) = (b.width : Int) := by ring
  rw [validCells, Finset.card_product, Int.card_Icc, Int.card_Icc, e1, e2,
    Int.toNat_natCast, Int.toNat_natCast]

/-- Stage 1 of the flood fill's four sequential neighbor calls (up). -/
def ffA1 (b : Board) (c : PuyoColor) (n : Nat) (pos : Coord) (v : List Coord) :
    List Coord × List Coord :=
  getAdjacentSameColor b c n (pos.1 - 1, pos.2) (pos :: v)

/-- Stage 2 (down), threading stage 1's visited set. -/
def ffA2 (b : Board) (c : PuyoColor) (n : Nat) (pos : Coord) (v : List Coord) :
    List Coord × List Coord :=
  getAdjacentSameColor b c n (pos.1 + 1, pos.2) (ffA1 b c n pos v).2

/-- Stage 3 (left). -/
def ffA3 (b : Board) (c : PuyoColor) (n : Nat) (pos : Coord) (v : List Coord) :
    List Coord × List Coord :=
  getAdjacentSameColor b c n (pos.1, pos.2 - 1) (ffA2 b c n pos v).2

/-- Stage 4 (right). -/
def ffA4 (b : Board) (c : PuyoColor) (n : Nat) (pos : Coord) (v : List Coord) :
    List Coord × List Coord :=
  getAdjacentSameColor b c n (pos.1, pos.2 + 1) (ffA3 b c n pos v).2

lemma ff_exit (b : Board) (c : PuyoColor) (n : Nat) (pos : Coord) (v : List Coord)
    (h : ¬ isValidPosition b pos.1 pos.2 = true ∨ ¬ getCell b pos.1 pos.2 = c ∨ pos ∈ v) :
    getAdjacentSameColor b c (n + 1) pos v = ([], v) := by
  rcases h with h | h | h
  · have h' : isValidPosition b pos.1 pos.2 = false := by simpa using h
    simp [getAdjacentSameColor, h']
  · by_cases g1 : isValidPosition b pos.1 pos.2 = true
    · simp [getAdjacentSameColor, g1, h]
    · simp [getAdjacentSameColor, g1]
  · by_cases g1 : isValidPosition b pos.1 pos.2 = true
    · by_cases g2 : getCell b pos.1 pos.2 = c
      · simp [getAdjacentSameColor, g1, g2, h]
      · simp [getAdjacentSameColor, g1, g2]
    · simp [getAdjacentSameColor, g1]

lemma ff_succ_pos (b : Board) (c : PuyoColor) (n : Nat) (pos : Coord) (v : List Coord)
    (g1 : isValidPosition b pos.1 pos.2 = true)
    (g2 : getCell b pos.1 pos.2 = c)
    (g3 : pos ∉ v) :
    getAdjacentSameColor b c (n + 1) pos v =
      (pos :: ((ffA1 b c n pos v).1 ++ (ffA2 b c n pos v).1 ++
        (ffA3 b c n pos v).1 ++ (ffA4 b c n pos v).1), (ffA4 b c n pos v).2) := by
  simp [getAdjacentSameColor, g1, g2, g3, ffA1, ffA2, ffA3, ffA4]

lemma ff_visited_subset (b : Board) (c : PuyoColor) :
    ∀ (n : Nat) (pos : Coord) (v : List Coord), ∀ q ∈ v,
      q ∈ (getAdjacentSameColor b c n pos v).2 := by
  intro n
  induction n with
  | zero => intro pos v q hq; exact hq
  | succ n ih =>
    intro pos v q hq
    by_cases g1 : isValidPosition b pos.1 pos.2 = true
    · by_cases g2 : getCell b pos.1 pos.2 = c
      · by_cases g3 : pos ∈ v
        · rw [ff_exit b c n pos v (Or.inr (Or.inr g3))]; exact hq
        · rw [ff_succ_pos b c n pos v g1 g2 g3]
          show q ∈ (ffA4 b c n pos v).2
          exact ih _ _ q (ih _ _ q (ih _ _ q (ih _ _ q (by simp [hq]))))
      · rw [ff_exit b c n pos v (Or.inr (Or.inl g2))]; exact hq
    · rw [ff_exit b c n pos v (Or.inl g1)]; exact hq

lemma ff_visited_iff (b : Board) (c : PuyoColor) :
    ∀ (n : Nat) (pos : Coord) (v : List Coord) (q : Coord),
      q ∈ (getAdjacentSameColor b c n pos v).2 ↔
        q ∈ (getAdjacentSameColor b c n pos v).1 ∨ q ∈ v := by
  intro n
  induction n with
  | zero =>
    intro pos v q
    show q ∈ v ↔ q ∈ ([] : List Coord) ∨ q ∈ v
    simp
  | succ n ih =>
    intro pos v q
    by_cases g1 : isValidPosition b pos.1 pos.2 = true
    · by_cases g2 : getCell b pos.1 pos.2 = c
      · by_cases g3 : pos ∈ v
        · rw [ff_exit b c n pos v (Or.inr (Or.inr g3))]; simp
        · rw [ff_succ_pos b c n pos v g1 g2 g3]
          show q ∈ (ffA4 b c n pos v).2 ↔ _
          rw [show (ffA4 b c n pos v).2 =
              (getAdjacentSameColor b c n (pos.1, pos.2 + 1) (ffA3 b c n pos v).2).2 from rfl,
            ih, show (ffA3 b c n pos v).2 =
              (getAdjacentSameColor b c n (pos.1, pos.2 - 1) (ffA2 b c n pos v).2).2 from rfl,
            ih, show (ffA2 b c n pos v).2 =
              (getAdjacentSameColor b c n (pos.1 + 1, pos.2) (ffA1 b c n pos v).2).2 from rfl,
            ih, show (ffA1 b c n pos v).2 =
              (getAdjacentSameColor b c n (pos.1 - 1, pos.2) (pos :: v)).2 from rfl,
            ih]
          simp only [List.mem_cons, List.mem_append, ffA1, ffA2, ffA3, ffA4]
          tauto
      · rw [ff_exit b c n pos v (Or.inr (Or.inl g2))]; simp
    · rw [ff_exit b c n pos v (Or.inl g1)]; simp

lemma ff_result_subset_visited (b : Board) (c : PuyoColor) (n : Nat) (pos : Coord)
    (v : List Coord) {q : Coord} (h : q ∈ (getAdjacentSameColor b c n pos v).1) :
    q ∈ (getAdjacentSameColor b c n pos v).2 :=
  (ff_visited_iff b c n pos v q).mpr (Or.inl h)

lemma ff_sound (b : Board) (c : PuyoColor) :
    ∀ (n : Nat) (pos : Coord) (v : List Coord), ∀ q ∈ (getAdjacentSameColor b c n pos v).1,
      Reach b c pos q := by
  intro n
  induction n with
  | zero => intro pos v q hq; exact absurd hq (List.not_mem_nil q)
  | succ n ih =>
    intro pos v q hq
    by_cases g1 : isValidPosition b pos.1 pos.2 = true
    · by_cases g2 : getCell b pos.1 pos.2 = c
      · by_cases g3 : pos ∈ v
        · rw [ff_exit b c n pos v (Or.inr (Or.inr g3))] at hq
          exact absurd hq (List.not_mem_nil q)
        · rw [ff_succ_pos b c n pos v g1 g2 g3] at hq
          have hokpos : okCell b c pos := ⟨g1, g2⟩
          simp only [List.mem_cons, List.mem_append] at hq
          have step : ∀ pos' : Coord, pos' ∈ neighbors pos →
              Reach b c pos' q → Reach b c pos q := by
            intro pos' hmem hr
            exact Reach.trans (Reach.tail (Reach.refl pos hokpos) hmem hr.src_ok) hr
          rcases hq with rfl | ((hq | hq) | hq) | hq
          · exact Reach.refl q hokpos
          · exact step _ (by simp [neighbors]) (ih _ _ q hq)
          · exact step _ (by simp [neighbors]) (ih _ _ q hq)
          · exact step _ (by simp [neighbors]) (ih _ _ q hq)
          · exact step _ (by simp [neighbors]) (ih _ _ q hq)
      · rw [ff_exit b c n pos v (Or.inr (Or.inl g2))] at hq
        exact absurd hq (List.not_mem_nil q)
    · rw [ff_exit b c n pos v (Or.inl g1)] at hq
      exact absurd hq (List.not_mem_nil q)

lemma ff_root_in_visited (b : Board) (c : PuyoColor) (n : Nat) (pos : Coord)
    (v : List Coord) (hok : okCell b c pos) :
    pos ∈ (getAdjacentSameColor b c (n + 1) pos v).2 := by
  by_cases g3 : pos ∈ v
  · rw [ff_exit b c n pos v (Or.inr (Or.inr g3))]; exact g3
  · rw [ff_succ_pos b c n pos v hok.1 hok.2 g3]
    show pos ∈ (ffA4 b c n pos v).2
    apply ff_visited_subset
    apply ff_visited_subset
    apply ff_visited_subset
    apply ff_visited_subset
    simp

lemma ff_nodup_fresh (b : Board) (c : PuyoColor) :
    ∀ (n : Nat) (pos : Coord) (v : List Coord),
      (getAdjacentSameColor b c n pos v).1.Nodup ∧
      ∀ q ∈ (getAdjacentSameColor b c n pos v).1, q ∉ v := by
  intro n
  induction n with
  | zero =>
    intro pos v
    exact ⟨List.nodup_nil, fun q hq => absurd hq (List.not_mem_nil q)⟩
  | succ n ih =>
    intro pos v
    by_cases g1 : isValidPosition b pos.1 pos.2 = true
    · by_cases g2 : getCell b pos.1 pos.2 = c
      · by_cases g3 : pos ∈ v
        · rw [ff_exit b c n pos v (Or.inr (Or.inr g3))]
          exact ⟨List.nodup_nil, fun q hq => absurd hq (List.not_mem_nil q)⟩
        · rw [ff_succ_pos b c n pos v g1 g2 g3]
          simp only [ffA1, ffA2, ffA3, ffA4]
          set A1 := getAdjacentSameColor b c n (pos.1 - 1, pos.2) (pos :: v) with hA1def
          set A2 := getAdjacentSameColor b c n (pos.1 + 1, pos.2) A1.2 with hA2def
          set A3 := getAdjacentSameColor b c n (pos.1, pos.2 - 1) A2.2 with hA3def
          set A4 := getAdjacentSameColor b c n (pos.1, pos.2 + 1) A3.2 with hA4def
          have s1 : ∀ x ∈ pos :: v, x ∈ A1.2 := fun x hx =>
            ff_visited_subset b c n _ _ x hx
          have s2 : ∀ x ∈ A1.2, x ∈ A2.2 := fun x hx =>
            ff_visited_subset b c n _ _ x hx
          have s3 : ∀ x ∈ A2.2, x ∈ A3.2 := fun x hx =>
            ff_visited_subset b c n _ _ x hx
          have r1 : ∀ x ∈ A1.1, x ∈ A1.2 := fun x hx =>
            ff_result_subset_visited b c n _ _ hx
          have r2 : ∀ x ∈ A2.1, x ∈ A2.2 := fun x hx =>
            ff_result_subset_visited b c n _ _ hx
          have r3 : ∀ x ∈ A3.1, x ∈ A3.2 := fun x hx =>
            ff_result_subset_visited b c n _ _ hx
          have h1 := ih (pos.1 - 1, pos.2) (pos :: v)
          have h2 := ih (pos.1 + 1, pos.2) A1.2
          have h3 := ih (pos.1, pos.2 - 1) A2.2
          have h4 := ih (pos.1, pos.2 + 1) A3.2
          constructor
          · show (pos :: (A1.1 ++ A2.1 ++ A3.1 ++ A4.1)).Nodup
            rw [List.nodup_cons]
            constructor
            · intro hmem
              have hposA1 : pos ∈ A1.2 := s1 pos (by simp)
              simp only [List.mem_append] at hmem
              rcases hmem with ((h | h) | h) | h
              · exact (h1.2 pos h) (by simp)
              · exact (h2.2 pos h) hposA1
              · exact (h3.2 pos h) (s2 _ hposA1)
              · exact (h4.2 pos h) (s3 _ (s2 _ hposA1))
            · have d12 : A1.1.Disjoint A2.1 := fun a ha ha' => (h2.2 a ha') (r1 a ha)
              have n12 : (A1.1 ++ A2.1).Nodup := h1.1.append h2.1 d12
              have d123 : (A1.1 ++ A2.1).Disjoint A3.1 := by
                intro a ha ha'
                rcases List.mem_append.mp ha with h | h
                · exact (h3.2 a ha') (s2 a (r1 a h))
                · exact (h3.2 a ha') (r2 a h)
              have n123 : (A1.1 ++ A2.1 ++ A3.1).Nodup := n12.append h3.1 d123
              have d1234 : (A1.1 ++ A2.1 ++ A3.1).Disjoint A4.1 := by
                intro a ha ha'
                rcases List.mem_append.mp ha with h | h
                · rcases List.mem_append.mp h with h' | h'
                  · exact (h4.2 a ha') (s3 a (s2 a (r1 a h')))
                  · exact (h4.2 a ha') (s3 a (r2 a h'))
                · exact (h4.2 a ha') (r3 a h)
              exact n123.append h4.1 d1234
          · intro q hq hqv
            simp only [List.mem_cons, List.mem_append] at hq
            rcases hq with rfl | ((h | h) | h) | h
            · exact g3 hqv
            · exact (h1.2 q h) (by simp [hqv])
            · exact (h2.2 q h) (s1 q (by simp [hqv]))
            · exact (h3.2 q h) (s2 q (s1 q (by simp [hqv])))
            · exact (h4.2 q h) (s3 q (s2 q (s1 q (by simp [hqv]))))
      · rw [ff_exit b c n pos v (Or.inr (Or.inl g2))]
        exact ⟨List.nodup_nil, fun q hq => absurd hq (List.not_mem_nil q)⟩
    · rw [ff_exit b c n pos v (Or.inl g1)]
      exact ⟨List.nodup_nil, fun q hq => absurd hq (List.not_mem_nil q)⟩

lemma ff_closed (b : Board) (c : PuyoColor) :
    ∀ (n : Nat) (pos : Coord) (v : List Coord),
      (validCells b \ v.toFinset).card + 1 ≤ n →
      ∀ q ∈ (getAdjacentSameColor b c n pos v).2, q ∉ v →
      ∀ r ∈ neighbors q, okCell b c r → r ∈ (getAdjacentSameColor b c n pos v).2 := by
  intro n
  induction n with
  | zero => intro pos v hfuel; omega
  | succ n ih =>
    intro pos v hfuel q hq hqnv r hr hokr
    by_cases g1 : isValidPosition b pos.1 pos.2 = true
    · by_cases g2 : getCell b pos.1 pos.2 = c
      · by_cases g3 : pos ∈ v
        · rw [ff_exit b c n pos v (Or.inr (Or.inr g3))] at hq ⊢
          exact absurd hq hqnv
        · rw [ff_succ_pos b c n pos v g1 g2 g3] at hq ⊢
          simp only [ffA1, ffA2, ffA3, ffA4] at hq ⊢
          set A1 := getAdjacentSameColor b c n (pos.1 - 1, pos.2) (pos :: v) with hA1def
          set A2 := getAdjacentSameColor b c n (pos.1 + 1, pos.2) A1.2 with hA2def
          set A3 := getAdjacentSameColor b c n (pos.1, pos.2 - 1) A2.2 with hA3def
          set A4 := getAdjacentSameColor b c n (pos.1, pos.2 + 1) A3.2 with hA4def
          have s1 : ∀ x ∈ pos :: v, x ∈ A1.2 := fun x hx =>
            ff_visited_subset b c n _ _ x hx
          have s2 : ∀ x ∈ A1.2, x ∈ A2.2 := fun x hx =>
            ff_visited_subset b c n _ _ x hx
          have s3 : ∀ x ∈ A2.2, x ∈ A3.2 := fun x hx =>
            ff_visited_subset b c n _ _ x hx
          have s4 : ∀ x ∈ A3.2, x ∈ A4.2 := fun x hx =>
            ff_visited_subset b c n _ _ x hx
          have hposv : pos ∈ validCells b \ v.toFinset := by
            rw [Finset.mem_sdiff]
            exact ⟨(mem_validCells b pos).mpr g1, by simpa using g3⟩
          have hm0 : (validCells b \ (pos :: v).toFinset).card + 1 ≤ n := by
            have herase : validCells b \ (pos :: v).toFinset =
                (validCells b \ v.toFinset).erase pos := by
              rw [List.toFinset_cons]
              ext x
              simp only [Finset.mem_sdiff, Finset.mem_erase, Finset.mem_insert]
              tauto
            have hpos1 : 1 ≤ (validCells b \ v.toFinset).card :=
              Finset.card_pos.mpr ⟨pos, hposv⟩
            rw [herase, Finset.card_erase_of_mem hposv]
            omega
          have hbound : ∀ w : List Coord, (∀ x ∈ pos :: v, x ∈ w) →
              (validCells b \ w.toFinset).card + 1 ≤ n := by
            intro w hw
            have hsub : validCells b \ w.toFinset ⊆ validCells b \ (pos :: v).toFinset := by
              apply Finset.sdiff_subset_sdiff (Finset.Subset.refl _)
              intro x hx
              rw [List.mem_toFinset] at hx ⊢
              exact hw x hx
            have := Finset.card_le_card hsub
            omega
          have hn1 : 1 ≤ n := by
            have := hm0
            omega
          obtain ⟨n', rfl⟩ : ∃ n', n = n' + 1 := ⟨n - 1, by omega⟩
          show r ∈ A4.2
          by_cases hq1 : q ∈ pos :: v
          · have hqpos : q = pos := by
              rcases List.mem_cons.mp hq1 with h | h
              · exact h
              · exact absurd h hqnv
            subst hqpos
            simp only [neighbors, List.mem_cons, List.not_mem_nil, or_false] at hr
            rcases hr with rfl | rfl | rfl | rfl
            · exact s4 _ (s3 _ (s2 _ (ff_root_in_visited b c n' _ _ hokr)))
            · exact s4 _ (s3 _ (ff_root_in_visited b c n' _ _ hokr))
            · exact s4 _ (ff_root_in_visited b c n' _ _ hokr)
            · exact ff_root_in_visited b c n' _ _ hokr
          · by_cases hq2 : q ∈ A1.2
            · exact s4 _ (s3 _ (s2 _ (ih (pos.1 - 1, pos.2) (pos :: v) hm0 q hq2 hq1
                r hr hokr)))
            · by_cases hq3 : q ∈ A2.2
              · exact s4 _ (s3 _ (ih (pos.1 + 1, pos.2) A1.2 (hbound A1.2 s1)
                  q hq3 hq2 r hr hokr))
              · by_cases hq4 : q ∈ A3.2
                · exact s4 _ (ih (pos.1, pos.2 - 1) A2.2
                    (hbound A2.2 fun x hx => s2 x (s1 x hx)) q hq4 hq3 r hr hokr)
                · exact ih (pos.1, pos.2 + 1) A3.2
                    (hbound A3.2 fun x hx => s3 x (s2 x (s1 x hx))) q hq hq4 r hr hokr
      · rw [ff_exit b c n pos v (Or.inr (Or.inl g2))] at hq ⊢
        exact absurd hq hqnv
    · rw [ff_exit b c n pos v (Or.inl g1)] at hq ⊢
      exact absurd hq hqnv

lemma ff_complete (b : Board) (c : PuyoColor) (pos : Coord) (hok : okCell b c pos) :
    ∀ q : Coord, Reach b c pos q →
      q ∈ (getAdjacentSameColor b c (ffFuel b) pos []).1 := by
  have hfuel : (validCells b \ ([] : List Coord).toFinset).card + 1 ≤ ffFuel b := by
    rw [ffFuel]
    simp only [List.toFinset_nil, Finset.sdiff_empty, card_validCells]
    rw [Nat.mul_comm]
  have hresult : ∀ x : Coord, x ∈ (getAdjacentSameColor b c (ffFuel b) pos []).2 →
      x ∈ (getAdjacentSameColor b c (ffFuel b) pos []).1 := by
    intro x hx
    rcases (ff_visited_iff b c (ffFuel b) pos [] x).mp hx with h | h
    · exact h
    · exact absurd h (List.not_mem_nil x)
  have hroot : pos ∈ (getAdjacentSameColor b c (ffFuel b) pos []).2 :=
    ff_root_in_visited b c (b.width * b.height) pos [] hok
  intro q h
  induction h with
  | refl _ => exact hresult _ hroot
  | tail h1 hmem hok' ih =>
    apply hresult
    apply ff_closed b c (ffFuel b) pos [] hfuel _
      (ff_result_subset_visited b c (ffFuel b) pos [] ih)
      (List.not_mem_nil _) _ hmem hok'

/-- The group the code floods from a seed: flood fill at the seed's own
color from a fresh visited set. -/
def groupList (b : Board) (pos : Coord) : List Coord :=
  (getAdjacentSameColor b (getCell b pos.1 pos.2) (ffFuel b) pos []).1

lemma ins_mem (m : List Coord) (a q : Coord) :
    (q ∈ if a ∈ m then m else m ++ [a]) ↔ q ∈ m ∨ q = a := by
  split
  · next h =>
    constructor
    · exact Or.inl
    · rintro (hq | rfl)
      · exact hq
      · exact h
  · simp

lemma insFold_mem_of_mem (l : List Coord) :
    ∀ (m : List Coord) (q : Coord), q ∈ m →
      q ∈ l.foldl (fun m' q' => if q' ∈ m' then m' else m' ++ [q']) m := by
  induction l with
  | nil => intro m q hq; exact hq
  | cons a t ih =>
    intro m q hq
    rw [List.foldl_cons]
    exact ih _ q ((ins_mem m a q).mpr (Or.inl hq))

lemma insFold_mem_of_mem_list (l : List Coord) :
    ∀ (m : List Coord) (q : Coord), q ∈ l →
      q ∈ l.foldl (fun m' q' => if q' ∈ m' then m' else m' ++ [q']) m := by
  induction l with
  | nil => intro m q hq; exact absurd hq (List.not_mem_nil q)
  | cons a t ih =>
    intro m q hq
    rw [List.foldl_cons]
    rcases List.mem_cons.mp hq with rfl | hq'
    · exact insFold_mem_of_mem t _ q ((ins_mem m q q).mpr (Or.inr rfl))
    · exact ih _ q hq'

lemma insFold_mem_elim (l : List Coord) :
    ∀ (m : List Coord) (q : Coord),
      q ∈ l.foldl (fun m' q' => if q' ∈ m' then m' else m' ++ [q']) m →
      q ∈ m ∨ q ∈ l := by
  induction l with
  | nil => intro m q hq; exact Or.inl hq
  | cons a t ih =>
    intro m q hq
    rw [List.foldl_cons] at hq
    rcases ih _ q hq with h | h
    · rcases (ins_mem m a q).mp h with h' | rfl
      · exact Or.inl h'
      · exact Or.inr (by simp)
    · exact Or.inr (by simp [h])

lemma detMatchStep_mono (b : Board) (m : List Coord) (pos : Coord) :
    ∀ q ∈ m, q ∈ detMatchStep b m pos := by
  intro q hq
  simp only [detMatchStep]
  split
  · exact hq
  · split
    · exact hq
    · split
      · exact insFold_mem_of_mem _ m q hq
      · exact hq

/-- Provenance of every coordinate the step adds: it comes from a seed whose
flood-filled group reached the threshold. -/
def SeedWitness (b : Board) (q : Coord) : Prop :=
  ∃ s : Coord, getCell b s.1 s.2 ≠ PuyoColor.empty ∧ getCell b s.1 s.2 ≠ PuyoColor.garbage ∧
    q ∈ groupList b s ∧ MIN_MATCH ≤ (groupList b s).length

lemma detMatchStep_elim (b : Board) (m : List Coord) (pos : Coord) :
    ∀ q ∈ detMatchStep b m pos, q ∈ m ∨ SeedWitness b q := by
  intro q hq
  simp only [detMatchStep] at hq
  split at hq
  · exact Or.inl hq
  · next hcolor =>
    split at hq
    · exact Or.inl hq
    · split at hq
      · next hlen =>
        rcases insFold_mem_elim _ m q hq with h | h
        · exact Or.inl h
        · refine Or.inr ⟨pos, ?_, ?_, h, hlen⟩
          · intro he
            simp [he] at hcolor
          · intro hg
            simp [hg] at hcolor
      · exact Or.inl hq

lemma detMatchStep_self (b : Board) (m : List Coord) (q : Coord)
    (h1 : getCell b q.1 q.2 ≠ PuyoColor.empty)
    (h2 : getCell b q.1 q.2 ≠ PuyoColor.garbage)
    (hvalid : isValidPosition b q.1 q.2 = true)
    (hlen : MIN_MATCH ≤ (groupList b q).length) :
    q ∈ detMatchStep b m q := by
  have hlen' : MIN_MATCH ≤
      (getAdjacentSameColor b (getCell b q.1 q.2) (ffFuel b) q []).1.length := hlen
  simp only [detMatchStep]
  rw [if_neg (by simp [h1, h2])]
  rw [if_pos hlen']
  split
  · next h => exact h
  · apply insFold_mem_of_mem_list
    show q ∈ groupList b q
    simp only [groupList]
    have hroot : q ∈ (getAdjacentSameColor b (getCell b q.1 q.2) (ffFuel b) q []).2 :=
      ff_root_in_visited b (getCell b q.1 q.2) (b.width * b.height) q [] ⟨hvalid, rfl⟩
    rcases (ff_visited_iff b (getCell b q.1 q.2) (ffFuel b) q [] q).mp hroot with h | h
    · exact h
    · exact absurd h (List.not_mem_nil q)

lemma detFold_mono (b : Board) (l : List Coord) :
    ∀ (m : List Coord) (q : Coord), q ∈ m → q ∈ l.foldl (detMatchStep b) m := by
  induction l with
  | nil => intro m q hq; exact hq
  | cons a t ih =>
    intro m q hq
    rw [List.foldl_cons]
    exact ih _ q (detMatchStep_mono b m a q hq)

lemma detFold_elim (b : Board) (l : List Coord) :
    ∀ (m : List Coord), (∀ q ∈ m, SeedWitness b q) →
      ∀ q ∈ l.foldl (detMatchStep b) m, SeedWitness b q := by
  induction l with
  | nil => intro m hm q hq; exact hm q hq
  | cons a t ih =>
    intro m hm q hq
    rw [List.foldl_cons] at hq
    refine ih _ ?_ q hq
    intro q' hq'
    rcases detMatchStep_elim b m a q' hq' with h | h
    · exact hm q' h
    · exact h

lemma detectMatches_seedWitness (b : Board) :
    ∀ q ∈ detectMatches b, SeedWitness b q := by
  intro q hq
  exact detFold_elim b (allCells b) [] (fun q' hq' => absurd hq' (List.not_mem_nil q')) q hq

/-- Every reported match coordinate is in bounds and holds a real color
(never empty, never garbage). -/
lemma detectMatches_mem_props (b : Board) :
    ∀ q ∈ detectMatches b,
      isValidPosition b q.1 q.2 = true ∧
      getCell b q.1 q.2 ≠ PuyoColor.empty ∧ getCell b q.1 q.2 ≠ PuyoColor.garbage := by
  intro q hq
  obtain ⟨s, hs1, hs2, hqg, _⟩ := detectMatches_seedWitness b q hq
  have hreach : Reach b (getCell b s.1 s.2) s q :=
    ff_sound b (getCell b s.1 s.2) (ffFuel b) s [] q hqg
  obtain ⟨hvalid, hcolor⟩ := hreach.dst_ok
  exact ⟨hvalid, by rw [hcolor]; exact hs1, by rw [hcolor]; exact hs2⟩

/-- Under the closure and connectivity hypotheses, the code's flooded group
from any member of `S` is exactly `S`, without duplicates. -/
lemma groupList_eq_of_component (b : Board) (c : PuyoColor) (S : Finset Coord)
    (hok : ∀ q ∈ S, okCell b c q)
    (hclosed : ∀ q ∈ S, ∀ r ∈ neighbors q, okCell b c r → r ∈ S)
    (p0 : Coord) (_hp0 : p0 ∈ S)
    (hconn : ∀ q ∈ S, Reach b c p0 q) :
    ∀ s ∈ S, (∀ x : Coord, x ∈ groupList b s ↔ x ∈ S) ∧
      (groupList b s).length = S.card := by
  intro s hs
  have hcol : getCell b s.1 s.2 = c := (hok s hs).2
  have hgl : groupList b s = (getAdjacentSameColor b c (ffFuel b) s []).1 := by
    rw [groupList, hcol]
  have hmem : ∀ x : Coord, x ∈ groupList b s ↔ x ∈ S := by
    intro x
    rw [hgl]
    constructor
    · intro hx
      exact reach_closed hclosed hs (ff_sound b c (ffFuel b) s [] x hx)
    · intro hx
      have hsx : Reach b c s x := Reach.trans (hconn s hs).symm (hconn x hx)
      exact ff_complete b c s (hok s hs) x hsx
  refine ⟨hmem, ?_⟩
  have hnodup : (groupList b s).Nodup := by
    rw [hgl]
    exact (ff_nodup_fresh b c (ffFuel b) s []).1
  have hfin : (groupList b s).toFinset = S := by
    ext x
    rw [List.mem_toFinset]
    exact hmem x
  rw [← List.toFinset_card_of_nodup hnodup, hfin]

/-- C6: let `S` be a maximal connected same-color group of a real color
(adjacency-closed, connected through one of its members).  If `S` has
exactly `MIN_MATCH − 1` cells, none of its cells is reported by
`detectMatches`; if it has exactly `MIN_MATCH` cells, all of them are. -/
theorem match_threshold_boundary (b : Board) (c : PuyoColor)
    (hc1 : c ≠ PuyoColor.empty) (hc2 : c ≠ PuyoColor.garbage)
    (S : Finset Coord)
    (hok : ∀ q ∈ S, okCell b c q)
    (hclosed : ∀ q ∈ S, ∀ r ∈ neighbors q, okCell b c r → r ∈ S)
    (p0 : Coord) (hp0 : p0 ∈ S)
    (hconn : ∀ q ∈ S, Reach b c p0 q) :
    (S.card = MIN_MATCH - 1 → ∀ q ∈ S, q ∉ detectMatches b) ∧
    (S.card = MIN_MATCH → ∀ q ∈ S, q ∈ detectMatches b) := by
  have hgrp := groupList_eq_of_component b c S hok hclosed p0 hp0 hconn
  constructor
  · intro hcard q hq hdet
    obtain ⟨s, hs1, hs2, hqg, hlen⟩ := detectMatches_seedWitness b q hdet
    have hreach : Reach b (getCell b s.1 s.2) s q :=
      ff_sound b (getCell b s.1 s.2) (ffFuel b) s [] q hqg
    have hcq : getCell b q.1 q.2 = c := (hok q hq).2
    have hcs : getCell b s.1 s.2 = c := by
      have := hreach.dst_ok.2
      rw [← this, hcq]
    rw [hcs] at hreach
    have hsS : s ∈ S := reach_closed hclosed hq hreach.symm
    have hlen' : (groupList b s).length = S.card := (hgrp s hsS).2
    rw [hlen', hcard] at hlen
    simp [MIN_MATCH] at hlen
  · intro hcard q hq
    have hvalid : isValidPosition b q.1 q.2 = true := (hok q hq).1
    have hcq : getCell b q.1 q.2 = c := (hok q hq).2
    obtain ⟨l1, l2, hl⟩ := List.append_of_mem ((mem_allCells b q).mpr hvalid)
    unfold detectMatches
    rw [hl, List.foldl_append, List.foldl_cons]
    apply detFold_mono
    apply detMatchStep_self
    · rw [hcq]; exact hc1
    · rw [hcq]; exact hc2
    · exact hvalid
    · rw [(hgrp q hq).2, hcard]

/-- C6 witness: on the 4×1 all-red board the maximal 4-cell red row is fully
reported; on the 3×1 board the 3-cell red row is not reported. -/
theorem match_threshold_boundary_witness :
    ((0, 0) : Coord) ∈ detectMatches exBoardRow4 ∧
    ((0, 0) : Coord) ∉ detectMatches exBoardRow3 := by
  constructor
  · have k0 : okCell exBoardRow4 PuyoColor.red (0, 0) := by decide
    have k1 : okCell exBoardRow4 PuyoColor.red (0, 1) := by decide
    have k2 : okCell exBoardRow4 PuyoColor.red (0, 2) := by decide
    have k3 : okCell exBoardRow4 PuyoColor.red (0, 3) := by decide
    have r0 : Reach exBoardRow4 PuyoColor.red (0, 0) (0, 0) := Reach.refl _ k0
    have r1 : Reach exBoardRow4 PuyoColor.red (0, 0) (0, 1) :=
      Reach.tail r0 (by decide) k1
    have r2 : Reach exBoardRow4 PuyoColor.red (0, 0) (0, 2) :=
      Reach.tail r1 (by decide) k2
    have r3 : Reach exBoardRow4 PuyoColor.red (0, 0) (0, 3) :=
      Reach.tail r2 (by decide) k3
    refine (match_threshold_boundary exBoardRow4 PuyoColor.red (by decide) (by decide)
      ({(0, 0), (0, 1), (0, 2), (0, 3)} : Finset Coord) (by decide) (by decide)
      (0, 0) (by decide) ?_).2 (by decide) (0, 0) (by decide)
    intro q hq
    simp only [Finset.mem_insert, Finset.mem_singleton] at hq
    rcases hq with rfl | rfl | rfl | rfl
    · exact r0
    · exact r1
    · exact r2
    · exact r3
  · have k0 : okCell exBoardRow3 PuyoColor.red (0, 0) := by decide
    have k1 : okCell exBoardRow3 PuyoColor.red (0, 1) := by decide
    have k2 : okCell exBoardRow3 PuyoColor.red (0, 2) := by decide
    have r0 : Reach exBoardRow3 PuyoColor.red (0, 0) (0, 0) := Reach.refl _ k0
    have r1 : Reach exBoardRow3 PuyoColor.red (0, 0) (0, 1) :=
      Reach.tail r0 (by decide) k1
    have r2 : Reach exBoardRow3 PuyoColor.red (0, 0) (0, 2) :=
      Reach.tail r1 (by decide) k2
    refine (match_threshold_boundary exBoardRow3 PuyoColor.red (by decide) (by decide)
      ({(0, 0), (0, 1), (0, 2)} : Finset Coord) (by decide) (by decide)
      (0, 0) (by decide) ?_).1 (by decide) (0, 0) (by decide)
    intro q hq
    simp only [Finset.mem_insert, Finset.mem_singleton] at hq
    rcases hq with rfl | rfl | rfl
    · exact r0
    · exact r1
    · exact r2

/-! ## Cell-count lemmas (C1, C2) -/

lemma map_sum_getD (l : List (List PuyoColor)) (f : List PuyoColor → Nat) :
    (l.map f).sum = ∑ i ∈ Finset.range l.length, f (l.getD i []) := by
  induction l with
  | nil => simp
  | cons a t ih =>
    rw [List.map_cons, List.sum_cons, List.length_cons, Finset.sum_range_succ']
    simp only [List.getD_cons_succ, List.getD_cons_zero]
    rw [ih]
    omega

lemma countP_eq_sum_range (l : List PuyoColor) (p : PuyoColor → Bool) :
    l.countP p = ∑ i ∈ Finset.range l.length,
      (if p (l.getD i PuyoColor.empty) = true then 1 else 0) := by
  induction l with
  | nil => simp
  | cons a t ih =>
    rw [List.countP_cons, List.length_cons, Finset.sum_range_succ']
    simp only [List.getD_cons_succ, List.getD_cons_zero]
    rw [ih]

lemma getD_map_of_lt {α β : Type _} (l : List α) (f : α → β) (i : Nat) (d : β) (d' : α)
    (h : i < l.length) : (l.map f).getD i d = f (l.getD i d') := by
  rw [List.getD_eq_getElem _ _ (by simpa using h), List.getElem_map,
    List.getD_eq_getElem _ _ h]

lemma range_getD (n i : Nat) (h : i < n) : (List.range n).getD i 0 = i := by
  rw [List.getD_eq_getElem _ _ (by simpa using h), List.getElem_range]

lemma countCells_applyGravity (p : PuyoColor → Bool) (hpe : p PuyoColor.empty = false)
    (b : Board) (hWF : b.WF) : countCells p (applyGravity b) = countCells p b := by
  obtain ⟨hlen, hrow⟩ := hWF
  have hrowD : ∀ r : Nat, r < b.grid.length → (b.grid.getD r []).length = b.width := by
    intro r hr
    rw [List.getD_eq_getElem _ _ hr]
    exact hrow _ (List.getElem_mem hr)
  have hcol_len : ∀ c : Nat, (compactColumn (getColumn b c)).length = b.height := by
    intro c
    rw [compactColumn_length, getColumn_length, hlen]
  have hg1 : (applyGravity b).grid.length = b.height := by simp [applyGravity]
  calc countCells p (applyGravity b)
      = ∑ r ∈ Finset.range b.height, ((applyGravity b).grid.getD r []).countP p := by
        unfold countCells
        rw [map_sum_getD, hg1]
    _ = ∑ r ∈ Finset.range b.height, ∑ c ∈ Finset.range b.width,
          (if p ((compactColumn (getColumn b c)).getD r PuyoColor.empty) = true
            then 1 else 0) := by
        apply Finset.sum_congr rfl
        intro r hr
        rw [Finset.mem_range] at hr
        have hrow' : (applyGravity b).grid.getD r [] =
            (List.range b.width).map fun c =>
              (compactColumn (getColumn b c)).getD r PuyoColor.empty := by
          show ((List.range b.height).map fun r' =>
              (List.range b.width).map fun c =>
                (compactColumn (getColumn b c)).getD r' PuyoColor.empty).getD r [] = _
          rw [getD_map_of_lt _ _ r [] 0 (by simpa using hr), range_getD _ _ hr]
        rw [hrow', countP_eq_sum_range, List.length_map, List.length_range]
        apply Finset.sum_congr rfl
        intro c hc
        rw [Finset.mem_range] at hc
        rw [getD_map_of_lt _ _ c PuyoColor.empty 0 (by simpa using hc), range_getD _ _ hc]
    _ = ∑ c ∈ Finset.range b.width, ∑ r ∈ Finset.range b.height,
          (if p ((compactColumn (getColumn b c)).getD r PuyoColor.empty) = true
            then 1 else 0) := Finset.sum_comm
    _ = ∑ c ∈ Finset.range b.width, (getColumn b c).countP p := by
        apply Finset.sum_congr rfl
        intro c _
        rw [show ∑ r ∈ Finset.range b.height,
            (if p ((compactColumn (getColumn b c)).getD r PuyoColor.empty) = true
              then 1 else 0) = (compactColumn (getColumn b c)).countP p from by
          rw [countP_eq_sum_range, hcol_len c]]
        exact countP_compactColumn p hpe _
    _ = ∑ c ∈ Finset.range b.width, ∑ r ∈ Finset.range b.height,
          (if p ((b.grid.getD r []).getD c PuyoColor.empty) = true then 1 else 0) := by
        apply Finset.sum_congr rfl
        intro c _
        rw [countP_eq_sum_range, getColumn_length, hlen]
        apply Finset.sum_congr rfl
        intro r hr
        rw [Finset.mem_range] at hr
        rw [show getColumn b c = b.grid.map fun row => row.getD c PuyoColor.empty from rfl,
          getD_map_of_lt _ _ r PuyoColor.empty [] (by rw [hlen]; exact hr)]
    _ = ∑ r ∈ Finset.range b.height, ∑ c ∈ Finset.range b.width,
          (if p ((b.grid.getD r []).getD c PuyoColor.empty) = true then 1 else 0) :=
        Finset.sum_comm
    _ = ∑ r ∈ Finset.range b.height, (b.grid.getD r []).countP p := by
        apply Finset.sum_congr rfl
        intro r hr
        rw [Finset.mem_range] at hr
        rw [countP_eq_sum_range, hrowD r (by rw [hlen]; exact hr)]
    _ = countCells p b := by
        unfold countCells
        rw [map_sum_getD, hlen]

lemma countP_set_le (p : PuyoColor → Bool) (x : PuyoColor) (hx : p x = false) :
    ∀ (l : List PuyoColor) (i : Nat), (l.set i x).countP p ≤ l.countP p := by
  intro l
  induction l with
  | nil => intro i; simp
  | cons a t ih =>
    intro i
    match i with
    | 0 => simp [List.countP_cons, hx]
    | Nat.succ j =>
      simp only [List.set_cons_succ, List.countP_cons]
      have := ih j
      omega

lemma countP_set_lt (p : PuyoColor → Bool) (x : PuyoColor) (hx : p x = false) :
    ∀ (l : List PuyoColor) (i : Nat), i < l.length →
      p (l.getD i PuyoColor.empty) = true → (l.set i x).countP p < l.countP p := by
  intro l
  induction l with
  | nil => intro i hi; simp at hi
  | cons a t ih =>
    intro i hi hp
    match i with
    | 0 =>
      simp only [List.getD_cons_zero] at hp
      simp [List.countP_cons, hx, hp]
    | Nat.succ j =>
      simp only [List.getD_cons_succ] at hp
      simp only [List.set_cons_succ, List.countP_cons]
      have := ih j (by simpa using hi) hp
      omega

lemma countP_set_eq (p : PuyoColor → Bool) (x : PuyoColor) (hx : p x = false) :
    ∀ (l : List PuyoColor) (i : Nat), p (l.getD i PuyoColor.empty) = false →
      (l.set i x).countP p = l.countP p := by
  intro l
  induction l with
  | nil => intro i _; simp
  | cons a t ih =>
    intro i hp
    match i with
    | 0 =>
      simp only [List.getD_cons_zero] at hp
      simp [List.countP_cons, hx, hp]
    | Nat.succ j =>
      simp only [List.getD_cons_succ] at hp
      simp only [List.set_cons_succ, List.countP_cons]
      rw [ih j hp]

lemma map_set_list {α β : Type _} (f : α → β) :
    ∀ (l : List α) (i : Nat) (a : α), (l.set i a).map f = (l.map f).set i (f a) := by
  intro l
  induction l with
  | nil => intro i a; rfl
  | cons hd t ih =>
    intro i a
    match i with
    | 0 => rfl
    | Nat.succ j => simp [List.set_cons_succ, ih]

lemma sum_set_le : ∀ (l : List Nat) (i : Nat) (a : Nat),
    (∀ _ : i < l.length, a ≤ l.getD i 0) → (l.set i a).sum ≤ l.sum := by
  intro l
  induction l with
  | nil => intro i a _; simp
  | cons hd t ih =>
    intro i a h
    match i with
    | 0 =>
      have := h (by simp)
      simp only [List.getD_cons_zero] at this
      simp only [List.set_cons_zero, List.sum_cons]
      omega
    | Nat.succ j =>
      simp only [List.set_cons_succ, List.sum_cons]
      have := ih j a fun hj => by
        have := h (by simpa using hj)
        simpa using this
      omega

lemma sum_set_lt : ∀ (l : List Nat) (i : Nat) (a : Nat), i < l.length →
    a < l.getD i 0 → (l.set i a).sum < l.sum := by
  intro l
  induction l with
  | nil => intro i a hi; simp at hi
  | cons hd t ih =>
    intro i a hi ha
    match i with
    | 0 =>
      simp only [List.getD_cons_zero] at ha
      simp only [List.set_cons_zero, List.sum_cons]
      omega
    | Nat.succ j =>
      simp only [List.getD_cons_succ] at ha
      simp only [List.set_cons_succ, List.sum_cons]
      have := ih j a (by simpa using hi) ha
      omega

lemma sum_set_eq : ∀ (l : List Nat) (i : Nat) (a : Nat),
    (∀ _ : i < l.length, a = l.getD i 0) → (l.set i a).sum = l.sum := by
  intro l
  induction l with
  | nil => intro i a _; simp
  | cons hd t ih =>
    intro i a h
    match i with
    | 0 =>
      have := h (by simp)
      simp only [List.getD_cons_zero] at this
      simp [List.set_cons_zero, List.sum_cons, this]
    | Nat.succ j =>
      simp only [List.set_cons_succ, List.sum_cons]
      rw [ih j a fun hj => by
        have := h (by simpa using hj)
        simpa using this]

lemma countCells_setCell_le (p : PuyoColor → Bool) (hpe : p PuyoColor.empty = false)
    (b : Board) (r c : Int) :
    countCells p (setCell b r c PuyoColor.empty) ≤ countCells p b := by
  unfold countCells setCell
  simp only
  rw [map_set_list]
  apply sum_set_le
  intro hlt
  rw [List.length_map] at hlt
  rw [getD_map_of_lt _ _ _ 0 [] hlt]
  exact countP_set_le p PuyoColor.empty hpe _ _

lemma countCells_setCell_lt (p : PuyoColor → Bool) (hpe : p PuyoColor.empty = false)
    (b : Board) (r c : Int) (hr : r.toNat < b.grid.length)
    (hc : c.toNat < (b.grid.getD r.toNat []).length)
    (hp : p (getCell b r c) = true) :
    countCells p (setCell b r c PuyoColor.empty) < countCells p b := by
  unfold countCells setCell
  simp only
  rw [map_set_list]
  apply sum_set_lt
  · rw [List.length_map]
    exact hr
  · rw [getD_map_of_lt _ _ _ 0 [] hr]
    exact countP_set_lt p PuyoColor.empty hpe _ _ hc hp

lemma countCells_setCell_eq (p : PuyoColor → Bool) (hpe : p PuyoColor.empty = false)
    (b : Board) (r c : Int) (hp : p (getCell b r c) = false) :
    countCells p (setCell b r c PuyoColor.empty) = countCells p b := by
  unfold countCells setCell
  simp only
  rw [map_set_list]
  apply sum_set_eq
  intro hlt
  rw [List.length_map] at hlt
  rw [getD_map_of_lt _ _ _ 0 [] hlt]
  exact countP_set_eq p PuyoColor.empty hpe _ _ hp

lemma getCell_setCell_or (b : Board) (r c : Int) (v : PuyoColor) (r' c' : Int) :
    getCell (setCell b r c v) r' c' = v ∨
    getCell (setCell b r c v) r' c' = getCell b r' c' := by
  rw [getCell_setCell]
  split
  · exact Or.inl rfl
  · exact Or.inr rfl

lemma clearFold_WF : ∀ (ps : List Coord) (nb : Board), nb.WF →
    (ps.foldl (fun nb' q => setCell nb' q.1 q.2 PuyoColor.empty) nb).WF := by
  intro ps
  induction ps with
  | nil => intro nb h; exact h
  | cons q rest ih =>
    intro nb h
    rw [List.foldl_cons]
    exact ih _ (setCell_WF h _ _ _)

lemma clearFold_count_le (p : PuyoColor → Bool) (hpe : p PuyoColor.empty = false) :
    ∀ (ps : List Coord) (nb : Board),
      countCells p (ps.foldl (fun nb' q => setCell nb' q.1 q.2 PuyoColor.empty) nb) ≤
        countCells p nb := by
  intro ps
  induction ps with
  | nil => intro nb; exact le_refl _
  | cons q rest ih =>
    intro nb
    rw [List.foldl_cons]
    exact le_trans (ih _) (countCells_setCell_le p hpe nb q.1 q.2)

lemma clearFold_garbage_eq :
    ∀ (ps : List Coord) (nb : Board),
      (∀ q ∈ ps, getCell nb q.1 q.2 ≠ PuyoColor.garbage) →
      countCells (· == PuyoColor.garbage)
        (ps.foldl (fun nb' q => setCell nb' q.1 q.2 PuyoColor.empty) nb) =
        countCells (· == PuyoColor.garbage) nb := by
  intro ps
  induction ps with
  | nil => intro nb _; rfl
  | cons q rest ih =>
    intro nb h
    rw [List.foldl_cons]
    have hstep : countCells (· == PuyoColor.garbage) (setCell nb q.1 q.2 PuyoColor.empty) =
        countCells (· == PuyoColor.garbage) nb := by
      apply countCells_setCell_eq _ (by decide)
      simp only [beq_eq_false_iff_ne, ne_eq]
      exact h q (by simp)
    rw [← hstep] at *
    apply ih
    intro q' hq'
    rcases getCell_setCell_or nb q.1 q.2 PuyoColor.empty q'.1 q'.2 with h' | h'
    · rw [h']
      decide
    · rw [h']
      exact h q' (by simp [hq'])

/-- C1 (amended): a clearing pass never removes garbage.  Every coordinate
reported by `detectMatches` is an in-bounds, truly-colored cell (never
garbage, never empty), and a full clear-and-settle pass leaves the number of
garbage cells unchanged — garbage adjacent to a cleared group survives. -/
theorem clearing_pass_never_clears_garbage (b : Board) :
    (∀ q ∈ detectMatches b,
      isValidPosition b q.1 q.2 = true ∧
      getCell b q.1 q.2 ≠ PuyoColor.empty ∧ getCell b q.1 q.2 ≠ PuyoColor.garbage) ∧
    (b.WF → countGarbage (clearMatches b (detectMatches b)) = countGarbage b) := by
  refine ⟨detectMatches_mem_props b, ?_⟩
  intro hWF
  show countCells (· == PuyoColor.garbage)
      (applyGravity ((detectMatches b).foldl
        (fun nb q => setCell nb q.1 q.2 PuyoColor.empty) b)) = _
  rw [countCells_applyGravity _ (by decide) _ (clearFold_WF _ b hWF)]
  exact clearFold_garbage_eq (detectMatches b) b
    fun q hq => (detectMatches_mem_props b q hq).2.2

/-- C1 counterexample: on the 5×1 board `[red, red, red, red, garbage]` the
red group is cleared, the garbage cell at `(0,4)` is 4-adjacent to the
cleared cell `(0,3)`, yet it is *not* removed in the same pass — refuting
"every garbage cell adjacent to a cleared group is also removed". -/
theorem garbage_adjacent_not_removed :
    getCell exBoardRG 0 4 = PuyoColor.garbage ∧
    ((0, 3) : Coord) ∈ detectMatches exBoardRG ∧
    ((0, 4) : Coord) ∈ neighbors (0, 3) ∧
    ((0, 4) : Coord) ∉ detectMatches exBoardRG ∧
    getCell (clearMatches exBoardRG (detectMatches exBoardRG)) 0 4 =
      PuyoColor.garbage := by
  refine ⟨by decide, by decide, by decide, by decide, by decide⟩

/-- C1 witness: the amended statement instantiated on the same concrete
board — the reported match `(0,3)` holds a real color, and the pass
preserves the garbage count. -/
theorem clearing_pass_never_clears_garbage_witness :
    getCell exBoardRG (0 : Int) (3 : Int) ≠ PuyoColor.garbage ∧
    countGarbage (clearMatches exBoardRG (detectMatches exBoardRG)) =
      countGarbage exBoardRG :=
  ⟨((clearing_pass_never_clears_garbage exBoardRG).1 (0, 3) (by decide)).2.2,
    (clearing_pass_never_clears_garbage exBoardRG).2 (by decide)⟩

/-! ## C2: chain resolution terminates with no matches left -/

lemma clearMatches_countNonEmpty_lt (b : Board) (hWF : b.WF)
    (hne : detectMatches b ≠ []) :
    countNonEmpty (clearMatches b (detectMatches b)) < countNonEmpty b := by
  obtain ⟨q, rest, hqr⟩ := List.exists_cons_of_ne_nil hne
  have hq : q ∈ detectMatches b := by rw [hqr]; simp
  obtain ⟨hvalid, hnemp, _⟩ := detectMatches_mem_props b q hq
  obtain ⟨h1, h2, h3, h4⟩ := (isValidPosition_iff b q.1 q.2).mp hvalid
  have hr : q.1.toNat < b.grid.length := by rw [hWF.1]; omega
  have hc : q.2.toNat < (b.grid.getD q.1.toNat []).length := by
    rw [WF_row_length hWF hr]; omega
  show countCells _ (applyGravity ((detectMatches b).foldl
    (fun nb q' => setCell nb q'.1 q'.2 PuyoColor.empty) b)) < _
  rw [countCells_applyGravity _ (by decide) _ (clearFold_WF _ b hWF)]
  rw [hqr, List.foldl_cons]
  calc countCells (fun v => !(v == PuyoColor.empty))
        (rest.foldl (fun nb q' => setCell nb q'.1 q'.2 PuyoColor.empty)
          (setCell b q.1 q.2 PuyoColor.empty))
      ≤ countCells (fun v => !(v == PuyoColor.empty))
          (setCell b q.1 q.2 PuyoColor.empty) := clearFold_count_le _ (by decide) rest _
    _ < countCells (fun v => !(v == PuyoColor.empty)) b := by
        apply countCells_setCell_lt _ (by decide) b q.1 q.2 hr hc
        simp only [Bool.not_eq_true']
        rwa [beq_eq_false_iff_ne]

lemma detectChainsGo_stable :
    ∀ (fuel : Nat) (board : Board) (n : Nat), board.WF → countNonEmpty board < fuel →
      detectMatches (detectChainsGo fuel board n).1 = [] := by
  intro fuel
  induction fuel with
  | zero => intro board n _ hcount; omega
  | succ fuel ih =>
    intro board n hWF hcount
    show detectMatches (if (detectMatches board).length = 0 then (board, n)
      else detectChainsGo fuel (clearMatches board (detectMatches board)) (n + 1)).1 = []
    split
    · next hlen =>
      simpa using List.length_eq_zero.mp hlen
    · next hlen =>
      have hne : detectMatches board ≠ [] := by
        intro h
        exact hlen (by rw [h]; rfl)
      apply ih _ (n + 1) (applyGravity_WF _)
      show countNonEmpty (clearMatches board (detectMatches board)) < fuel
      have := clearMatches_countNonEmpty_lt board hWF hne
      omega

/-- C2: each clear-then-settle pass strictly reduces the number of
non-empty cells, and the chain resolver's result grid has no remaining
matches — `detectMatches` of it is empty. -/
theorem chain_resolution_terminates (b : Board) (hWF : b.WF) :
    (detectMatches b ≠ [] →
      countNonEmpty (clearMatches b (detectMatches b)) < countNonEmpty b) ∧
    detectMatches (detectChains b).1 = [] := by
  refine ⟨clearMatches_countNonEmpty_lt b hWF, ?_⟩
  exact detectChainsGo_stable (countNonEmpty b + 1) b 0 hWF (Nat.lt_succ_self _)

/-- C2 witness: the concrete 5×1 board resolves to a stable grid and its
single pass strictly reduces the cell count. -/
theorem chain_resolution_terminates_witness :
    countNonEmpty (clearMatches exBoardRG (detectMatches exBoardRG)) <
      countNonEmpty exBoardRG ∧
    detectMatches (detectChains exBoardRG).1 = [] :=
  ⟨(chain_resolution_terminates exBoardRG (by decide)).1 (by decide),
    (chain_resolution_terminates exBoardRG (by decide)).2⟩
